import Mathlib

/-!
# Verification of the message-passing notebook (factor-graph exact inference)

Shallow embedding of `src/message-passing.ipynb`: a sum-product / max-sum
message-passing engine over tree-structured factor graphs, written against
sympy symbolic expressions.

Modelling conventions, fixed once here:

* sympy expressions are embedded as the inductive type `Expr`.  sympy stores
  the arguments of `Add`, `Mul`, `Max` and function applications as tuples;
  tuples are embedded as `consE`/`nilE` chains inside `Expr` itself (so that
  every function on `Expr` is plain structural recursion, which the kernel
  can evaluate).  `Expr.toList`/`Expr.ofList` convert between a chain and a
  `List Expr`.
* The notebook's potential functions are opaque external callables
  (`sympy.Function` objects replaced by lambdas at evaluation time via
  `Graph.__call__`).  The embedding keeps them opaque: evaluation is
  parametrised by `pot : ℕ → List ℤ → ℤ` (value of factor `f` on an argument
  tuple) and by `lg : ℤ → ℤ` (the interpretation of `sympy.log`; the claims
  settled below either quantify over `lg` or never reach a surviving `log`
  node).  The integer carrier keeps every definition executable; no claim
  depends on non-integer potential values, and the single genuine division
  in the source (`Variable.marginal`, `p_tilde / Z`) is interpreted into ℚ
  by `margVal` below.
* sympy automatically evaluates on construction (`0 + e → e`, `1*e → e`,
  flattening of nested `Add`/`Mul`, collection of numeric terms,
  `log(1) → 0`, `Max(e) → e`).  The algorithm relies on this (for example
  `sum(...)` over one max-message must yield the message itself, or
  `get_argmaxes` crashes), so the embedding builds expressions through the
  smart constructors `sAddL`, `sMulL`, `sLog`, `sMax` that perform the same
  evaluations.  sympy additionally keeps `Add`/`Mul`/`Max` arguments in a
  canonical sorted order (and deduplicates `Max` arguments); the embedding
  keeps construction order instead.  Every theorem below that inspects such
  an argument list only states order-invariant facts (lengths, memberships,
  evaluated values), so this difference is immaterial to the claims.
* Python `set` iteration order (for message collections) is arbitrary; the
  embedding stores message collections as lists in arrival order, one
  possible iteration order.  Again only order-invariant facts are stated.
-/

/-- Embedding of the sympy expressions manipulated by the notebook.
`consE`/`nilE` chains embed sympy argument tuples; `fapp f args` is an
(uninterpreted) `sympy.Function` application, i.e. a factor's potential
symbol applied to arguments; `divE` is sympy division (only produced by
`Variable.marginal`). -/
inductive Expr where
  | const (z : ℤ)
  | sym (i : ℕ)
  | nilE
  | consE (e : Expr) (es : Expr)
  | fapp (f : ℕ) (args : Expr)
  | addN (args : Expr)
  | mulN (args : Expr)
  | logE (e : Expr)
  | maxN (args : Expr)
  | divE (a b : Expr)
  deriving DecidableEq

/-- Chain to list conversion (sympy `expr.args` for the tuple-like nodes). -/
def Expr.toList : Expr → List Expr
  | .consE e es => e :: es.toList
  | _ => []

/-- List to chain conversion. -/
def Expr.ofList : List Expr → Expr
  | [] => .nilE
  | e :: es => .consE e (Expr.ofList es)

@[simp] theorem Expr.toList_ofList (es : List Expr) : (Expr.ofList es).toList = es := by
  induction es with
  | nil => rfl
  | cons e es ih => simp [Expr.ofList, Expr.toList, ih]

/-- Numeric value of a literal sympy number, if the node is one. -/
def Expr.constVal : Expr → Option ℤ
  | .const z => some z
  | _ => none

/-- Whether the node is a literal sympy number. -/
def Expr.isConst : Expr → Bool
  | .const _ => true
  | _ => false

/-- Whether the node is a sympy `Max` (used by `get_argmaxes`'
`isinstance(e, Max)` checks). -/
def Expr.isMax : Expr → Bool
  | .maxN _ => true
  | _ => false

/-- Argument tuple of a sympy node (`expr.args`): the stored chain for the
tuple-like nodes, the operands for `log` and division, empty for atoms. -/
def Expr.args : Expr → List Expr
  | .fapp _ args => args.toList
  | .addN args => args.toList
  | .mulN args => args.toList
  | .maxN args => args.toList
  | .logE e => [e]
  | .divE a b => [a, b]
  | _ => []

/-- Summands a term contributes to a sympy `Add` (flattening: a nested `Add`
contributes its own arguments). -/
def Expr.addArgs : Expr → List Expr
  | .addN args => args.toList
  | e => [e]

/-- Factors a term contributes to a sympy `Mul` (flattening). -/
def Expr.mulArgs : Expr → List Expr
  | .mulN args => args.toList
  | e => [e]

/-- Assembly of a sympy `Add` node from the collected numeric constant and
the remaining (non-numeric) terms. -/
def mkAdd (c : ℤ) (rest : List Expr) : Expr :=
  if c = 0 then
    match rest with
    | [] => .const 0
    | [e] => e
    | es => .addN (.ofList es)
  else
    match rest with
    | [] => .const c
    | es => .addN (.ofList (.const c :: es))

/-- Smart constructor mirroring sympy `Add` auto-evaluation: flatten nested
sums, collect numeric terms into one leading constant, drop a zero constant,
and collapse an empty or singleton argument list.  Python's builtin `sum`
over sympy terms produces exactly such a node. -/
def sAddL (es : List Expr) : Expr :=
  let flat := es.foldr (fun e acc => e.addArgs ++ acc) []
  mkAdd (flat.filterMap Expr.constVal).sum (flat.filter (fun e => ¬ e.isConst))

/-- Assembly of a sympy `Mul` node from the collected numeric constant and
the remaining terms. -/
def mkMul (c : ℤ) (rest : List Expr) : Expr :=
  if c = 0 then .const 0
  else if c = 1 then
    match rest with
    | [] => .const 1
    | [e] => e
    | es => .mulN (.ofList es)
  else
    match rest with
    | [] => .const c
    | es => .mulN (.ofList (.const c :: es))

/-- Smart constructor mirroring sympy `Mul` auto-evaluation (flattening,
numeric collection, `1*e → e`, `0*e → 0`). -/
def sMulL (es : List Expr) : Expr :=
  let flat := es.foldr (fun e acc => e.mulArgs ++ acc) []
  mkMul (flat.filterMap Expr.constVal).prod (flat.filter (fun e => ¬ e.isConst))

/-- Binary sympy addition (`x + y` in Python). -/
def sAdd2 (a b : Expr) : Expr := sAddL [a, b]

/-- Binary sympy multiplication (`x * y` in Python). -/
def sMul2 (a b : Expr) : Expr := sMulL [a, b]

/-- Smart constructor mirroring `sympy.log` auto-evaluation on the arguments
the notebook ever passes: `log(1)` evaluates to `0`, anything else stays a
symbolic `log` node. -/
def sLog : Expr → Expr
  | .const 1 => .const 0
  | e => .logE e

/-- Smart constructor mirroring `sympy.Max`: a single argument is returned
as-is.  (sympy also sorts and deduplicates arguments; the notebook's
aggregations always supply pairwise distinct symbolic arguments, and all
facts stated about `Max` argument lists below are order-invariant.) -/
def sMax (es : List Expr) : Expr :=
  match es with
  | [e] => e
  | es => .maxN (.ofList es)

/-- Python's `max` of a nonempty collection (used on evaluated values). -/
def maxListZ : List ℤ → ℤ
  | [] => 0
  | h :: t => t.foldl max h

/-- Substitution of a value for a variable's symbol, sympy `expr.subs`.
sympy re-runs constructor auto-evaluation bottom-up while substituting,
mirrored here through the smart constructors. -/
def subsE (i : ℕ) (v : ℤ) : Expr → Expr
  | .const q => .const q
  | .sym j => if j = i then .const v else .sym j
  | .nilE => .nilE
  | .consE e es => .consE (subsE i v e) (subsE i v es)
  | .fapp f args => .fapp f (subsE i v args)
  | .addN args => sAddL (subsE i v args).toList
  | .mulN args => sMulL (subsE i v args).toList
  | .logE e => sLog (subsE i v e)
  | .maxN args => sMax (subsE i v args).toList
  | .divE a b => .divE (subsE i v a) (subsE i v b)

/-- Evaluation of an expression, with the potential evaluator `pot` standing
for the lambdas registered via `Graph.add` and `lg` interpreting
`sympy.log`.  The first component is the value of the expression, the second
the value tuple of a `consE` chain (so that a single structural recursion
covers both).  `divE` is evaluated by integer division; the only division
the source produces (`marginal`) is separately interpreted into ℚ by
`margVal`. -/
def evalP (pot : ℕ → List ℤ → ℤ) (lg : ℤ → ℤ) (env : ℕ → ℤ) : Expr → ℤ × List ℤ
  | .const q => (q, [])
  | .sym i => (env i, [])
  | .nilE => (0, [])
  | .consE e es => (0, (evalP pot lg env e).1 :: (evalP pot lg env es).2)
  | .fapp f args => (pot f (evalP pot lg env args).2, [])
  | .addN args => ((evalP pot lg env args).2.sum, [])
  | .mulN args => ((evalP pot lg env args).2.prod, [])
  | .logE e => (lg (evalP pot lg env e).1, [])
  | .maxN args => (maxListZ (evalP pot lg env args).2, [])
  | .divE a b => ((evalP pot lg env a).1 / (evalP pot lg env b).1, [])

/-- Value of an expression (`Graph.__call__` with the given substitution
already performed on free symbols via `env`). -/
def evalE (pot : ℕ → List ℤ → ℤ) (lg : ℤ → ℤ) (env : ℕ → ℤ) (e : Expr) : ℤ :=
  (evalP pot lg env e).1

/-- Whether a symbol occurs free in the expression (used to witness that a
"partition constant" can still mention another variable's symbol). -/
def containsSym (i : ℕ) : Expr → Bool
  | .const _ => false
  | .sym j => j = i
  | .nilE => false
  | .consE e es => containsSym i e || containsSym i es
  | .fapp _ args => containsSym i args
  | .addN args => containsSym i args
  | .mulN args => containsSym i args
  | .logE e => containsSym i e
  | .maxN args => containsSym i args
  | .divE a b => containsSym i a || containsSym i b

/-- Node identity: Variables and Factors, keyed by a numeral standing for
the Python object's name/identity.  A Variable `V i` has `Expr.sym i` as its
sympy symbol; a Factor `F j` has the uninterpreted function symbol `j`. -/
inductive NId where
  | V (i : ℕ)
  | F (i : ℕ)
  deriving DecidableEq

/-- Underlying index of a node (the symbol index for a Variable). -/
def varIdOf : NId → ℕ
  | .V i => i
  | .F j => j

/-- Whether the node is a Variable. -/
def NId.isVar : NId → Bool
  | .V _ => true
  | .F _ => false

/-- Immutable part of a constructed factor graph, as the propagation loop
sees it: the derived node set `Graph.nodes` (a list fixing one iteration
order of the Python set), the neighbor lists, each Variable's domain
(`Variable.vals`), and the caller-designated root.  Mutable message
collections live in `PState` below. -/
structure FGraph where
  nodes : List NId
  nbrs : NId → List NId
  vals : ℕ → List ℤ
  root : NId

/-- `Node.is_child`: exactly one neighbor. -/
def isChild (G : FGraph) (n : NId) : Bool :=
  (G.nbrs n).length = 1

/-- `Factor.expr`: the factor's function symbol applied to the symbols of
its neighbors, in neighbor-list order. -/
def factorExpr (G : FGraph) (j : ℕ) : Expr :=
  .fapp j (.ofList ((G.nbrs (.F j)).map (fun n => Expr.sym (varIdOf n))))

/-- `from_node.expr if isinstance(from_node, Factor) else 1` (the Variable
branch of `compute_message`; a Python `Variable` has no `expr` attribute,
the literal `1` is used instead). -/
def srcExpr (G : FGraph) : NId → Expr
  | .F j => factorExpr G j
  | .V _ => .const 1

/-- Message record: expression, source, destination.  `Message` and
`MaxMessage` objects are identical records kept in separate collections
(`messages` / `max_messages`), mirrored below by separate mailboxes. -/
structure Msg where
  expr : Expr
  src : NId
  dst : NId
  deriving DecidableEq

/-- `functools.reduce` over a message collection (`reduce_incoming_msgs`).
Python `reduce` raises on an empty collection; the algorithm only applies it
to a non-leaf node that has already received at least one message, so the
empty case (given the placeholder value `1`) is never reached in any run
examined by the theorems below. -/
def reduce1 (f : Expr → Expr → Expr) : List Expr → Expr
  | [] => .const 1
  | e :: es => es.foldl f e

/-- `itertools.product` over the listed domains (first list varies
slowest, exactly itertools' order). -/
def cartesian : List (List ℤ) → List (List ℤ)
  | [] => [[]]
  | l :: ls => l.foldr (fun v acc => (cartesian ls).map (fun c => v :: c) ++ acc) []

/-- Simultaneous substitution of values for distinct symbols
(`expr.subs(dict)`; the symbols substituted are pairwise distinct variable
symbols and the values are numerals, so sequential substitution agrees). -/
def multiSubs (ps : List (ℕ × ℤ)) (e : Expr) : Expr :=
  ps.foldl (fun a p => subsE p.1 p.2 a) e

/-- `aggregate_over_nbrs(expr, from_node, to_node, agg_func)`.  Faithful to
the source, including its quirk: the parameter `e` is accepted but NOT used
— the parameter `_expr` is dead: the loop body substitutes into
`from_node.expr` (the bare factor potential), so for max-messages the log-expression handed in by
`compute_max_message` is discarded.  `agg` is `sum` (sum-product) or
`sympy_max = Max(*exprs)` (max-sum). -/
def aggregateOverNbrs (G : FGraph) (_expr : Expr) (frm tgt : NId)
    (agg : List Expr → Expr) : Expr :=
  let sumOver := (G.nbrs frm).filter (fun n => n ≠ tgt)
  let combos := cartesian (sumOver.map (fun n => G.vals (varIdOf n)))
  agg (combos.map (fun c => multiSubs (List.zip (sumOver.map varIdOf) c) (srcExpr G frm)))

/-- `compute_message(from_node, to_node)`: the sum-product message.  A leaf
(`is_child`) sends its potential (Factor) or the constant 1 (Variable);
otherwise the product of ALL messages currently in `from_node.messages` is
taken (`reduce_incoming_msgs` — note: no exclusion of a message previously
received from `to_node`), and a Factor additionally multiplies in the
aggregation of its potential over the other neighbors' domains. -/
def computeMessage (G : FGraph) (mail : NId → List Msg) (frm tgt : NId) : Msg :=
  if isChild G frm then
    Msg.mk (srcExpr G frm) frm tgt
  else
    let e := reduce1 sMul2 ((mail frm).map Msg.expr)
    let e := match frm with
      | .F _ => sMul2 e (aggregateOverNbrs G (srcExpr G frm) frm tgt sAddL)
      | .V _ => e
    Msg.mk e frm tgt

/-- `compute_max_message(from_node, to_node)`: the max-sum message.  A leaf
sends the log of what its sum-product leaf message would be; otherwise the
incoming expressions are SUMMED — note the source iterates
`from_node.messages`, i.e. the sum-product mailbox, not `max_messages` —
and a Factor adds the log of its potential and aggregates with `Max`
(through `aggregate_over_nbrs`, which discards that log-expression, see
above). -/
def computeMaxMessage (G : FGraph) (mail : NId → List Msg) (frm tgt : NId) : Msg :=
  if isChild G frm then
    Msg.mk (sLog (srcExpr G frm)) frm tgt
  else
    let e := reduce1 sAdd2 ((mail frm).map Msg.expr)
    let e := match frm with
      | .F j => aggregateOverNbrs G (sAdd2 e (sLog (factorExpr G j))) frm tgt sMax
      | .V _ => e
    Msg.mk e frm tgt

/-- Errors raised by `Variable.marginal`. -/
inductive MargErr where
  | incomplete
  | notInSupport
  deriving DecidableEq

/-- Unnormalized marginal at one domain value: the running product
`expr = 1; expr *= msg.expr.subs({symbol: v})` of `Variable.marginal`. -/
def margNum (mail : NId → List Msg) (i : ℕ) (v : ℤ) : Expr :=
  ((mail (.V i)).map Msg.expr).foldl (fun a e => sMul2 a (subsE i v e)) (.const 1)

/-- `Z` as computed inside `Variable.marginal`: the running sum, over the
domain, of the product of all received messages at each value. -/
def margZ (G : FGraph) (mail : NId → List Msg) (i : ℕ) : Expr :=
  (G.vals i).foldl (fun a v => sAdd2 a (margNum mail i v)) (.const 0)

/-- `Variable.marginal(val)` for Variable `V i`: raises if the number of
received sum-product messages differs from the number of neighbors, or if
`val` is not in the declared domain; otherwise returns the sympy expression
`p_tilde / Z` where `p_tilde` is the product of all received messages
evaluated at `val` and `Z` sums that product over the whole domain.  The
Python method reads but never mutates the Variable, mirrored here by a pure
function of the mailbox. -/
def marginal (G : FGraph) (mail : NId → List Msg) (i : ℕ) (val : ℤ) :
    Except MargErr Expr :=
  if (mail (.V i)).length ≠ (G.nbrs (.V i)).length then .error .incomplete
  else if ¬ (val ∈ G.vals i) then .error .notInSupport
  else
    .ok (.divE (margNum mail i val) (margZ G mail i))

/-- Value in ℚ of the expression returned by `marginal` — the single
genuine division the source produces; all other expressions are evaluated
by `evalE` in ℤ. -/
def margVal (pot : ℕ → List ℤ → ℤ) (lg : ℤ → ℤ) (env : ℕ → ℤ) : Expr → ℚ
  | .divE a b => (evalE pot lg env a : ℚ) / (evalE pot lg env b : ℚ)
  | e => (evalE pot lg env e : ℚ)

/-- Accepted-value table `max_states` of the back-tracking cell: a
`defaultdict(list)` keyed by variable symbol, embedded as an association
list so that the Python dict's insertion order of keys (which the final
`configs` zip relies on) is preserved. -/
abbrev MaxStates : Type := List (ℕ × List ℤ)

/-- Lookup with the defaultdict default `[]`. -/
def msGet (ms : MaxStates) (k : ℕ) : List ℤ :=
  ((List.find? (fun p => p.1 == k) ms).map Prod.snd).getD []

/-- `max_states[k] += vs` / `max_states[k].append(v)`: get-or-create the
key (at the end, as dict insertion does), then extend its list. -/
def msAppend (ms : MaxStates) (k : ℕ) (vs : List ℤ) : MaxStates :=
  if List.any ms (fun p => p.1 == k) then
    List.map (fun p => if p.1 == k then (p.1, p.2 ++ vs) else p) ms
  else ms ++ [(k, vs)]

/-- Reading `max_states[k]` on a defaultdict inserts the key with `[]` if
absent (this affects the key order seen by `configs`). -/
def msTouch (ms : MaxStates) (k : ℕ) : MaxStates :=
  if List.any ms (fun p => p.1 == k) then ms else ms ++ [(k, [])]

/-- Inner list comprehension of `get_argmaxes`:
`[term for term in e.args if g(term) == max_val][-1:]` with
`max_val = g(e)` — all maximizing argument terms are found and all but the
LAST one are dropped (the source comments this `"randomly" choose the last
one`).  `gv` is the numeric evaluation `g` (potentials substituted in). -/
def lastMaximizer (gv : Expr → ℤ) (e : Expr) : List Expr :=
  match (List.filter (fun t => gv t == gv e) e.args).getLast? with
  | some t => [t]
  | none => []

/-- `get_argmaxes(expr)`: one chosen term per `Max` node found.  The
generator recursion bottoms out after at most one step into `expr.args`
(a tuple whose members are all `Max`); in every other shape the source
raises (`AttributeError` on a bare tuple, or an unpacking error when
nothing is yielded) — those shapes are never exercised by the runs below
and are embedded as `[]`. -/
def getArgmaxes (gv : Expr → ℤ) (e : Expr) : List Expr :=
  if e.isMax then lastMaximizer gv e
  else if List.all e.args Expr.isMax then
    (e.args.map (lastMaximizer gv)).foldr (· ++ ·) []
  else []

/-- `back_track(node)` of the propagation cell, acting on the accepted-value
table.  `gv` is the numeric evaluation `g`.  The combined max-message is the
Python `sum` of the received max-message expressions; for the root every
domain value attaining the maximal combined score is accepted; then for each
accepted value the argmax terms of each `Max` determine one accepted value
for the other neighbor of the originating factor
(`setting, = [(s, v) ...]` — the source's destructuring raises unless that
list is a singleton, i.e. unless the factor has exactly two neighbors; the
non-singleton case is embedded as a no-op and never exercised below).
`btCombined` is `max_msg = sum(m.expr for m in node.max_messages)`;
`btScore` and `btWinners` name the `maxes` dict and the root acceptance
list, and `backTrack` itself performs the state update. -/
def btCombined (maxMail : NId → List Msg) (node : NId) : Expr :=
  sAddL ((maxMail node).map Msg.expr)

/-- `maxes[v] = g(max_msg.subs(node.symbol, v))`: the combined max-score of
the node at one of its domain values. -/
def btScore (gv : Expr → ℤ) (maxMail : NId → List Msg) (node : NId) (v : ℤ) : ℤ :=
  gv (subsE (varIdOf node) v (btCombined maxMail node))

/-- Root acceptance set: the domain values attaining the maximal combined
max-score (`[v for v, mx in maxes.items() if mx == max_val]`). -/
def btWinners (G : FGraph) (gv : Expr → ℤ) (maxMail : NId → List Msg) (node : NId) : List ℤ :=
  let maxVal := maxListZ ((G.vals (varIdOf node)).map (btScore gv maxMail node))
  List.filter (fun v => btScore gv maxMail node v == maxVal) (G.vals (varIdOf node))

def btPropagate (G : FGraph) (i : ℕ) (ms : MaxStates) (facs : List Expr) : MaxStates :=
  List.foldl (fun ms fac =>
    match fac with
    | .fapp f args =>
      (match List.filter (fun p => ¬ p.1 == i)
          (List.zip ((G.nbrs (.F f)).map varIdOf)
            (args.toList.map (fun a => a.constVal.getD 0))) with
      | [p] => msAppend ms p.1 [p.2]
      | _ => ms)
    | _ => ms) ms facs

def backTrack (G : FGraph) (gv : Expr → ℤ) (maxMail : NId → List Msg)
    (ms0 : MaxStates) (node : NId) : MaxStates :=
  let i := varIdOf node
  let ms1 := if node = G.root then msAppend ms0 i (btWinners G gv maxMail node)
    else ms0
  let ms2 := msTouch ms1 i
  List.foldl (fun ms v =>
    btPropagate G i ms (getArgmaxes gv (subsE i v (btCombined maxMail node))))
    ms2 (msGet ms2 i)

/-- Mutable state of the propagation cell: the FIFO/LIFO queue, the visited
sequence, the phase flag, both message mailboxes (`clear_messages` makes
them empty initially), and the accepted-value table. -/
structure PState where
  queue : List NId
  visited : List NId
  forward : Bool
  mail : NId → List Msg
  maxMail : NId → List Msg
  maxStates : MaxStates

/-- Initial state of the propagation cell:
`queue = deque([n for n in g.nodes if n.is_child and n != root])`,
empty `visited`, `forward = True`, cleared messages. -/
def initP (G : FGraph) : PState :=
  ⟨List.filter (fun n => isChild G n && !(n == G.root)) G.nodes,
   [], true, fun _ => [], fun _ => [], []⟩

/-- One send of the loop body: compute and attach the sum-product message
(and during collect also the max-sum message, computed AFTER the sum-product
message is attached, as in the source's statement order), then enqueue the
neighbor if it is not already queued. -/
def sendStep (G : FGraph) (frm : NId) (fwd : Bool)
    (acc : (NId → List Msg) × (NId → List Msg) × List NId) (nbr : NId) :
    (NId → List Msg) × (NId → List Msg) × List NId :=
  let msg := computeMessage G acc.1 frm nbr
  let mail1 := fun n => if n = nbr then acc.1 n ++ [msg] else acc.1 n
  let maxMail1 := if fwd then
      (fun n => if n = nbr then acc.2.1 n ++ [computeMaxMessage G mail1 frm nbr]
        else acc.2.1 n)
    else acc.2.1
  let queue1 := if List.contains acc.2.2 nbr then acc.2.2 else acc.2.2 ++ [nbr]
  (mail1, maxMail1, queue1)

/-- One iteration of `while queue and visited != g.nodes`.  (The loop guard
`visited != g.nodes` compares a `deque` with a `set` and is therefore always
`True` in Python; the effective guard is `queue` being nonempty, and an
empty-queue state is a fixed point.)  The iteration pops from the front
(collect) or the back (distribute), back-tracks on a Variable holding
max-messages during distribute, then sends a sum-product message — and
during collect also a max-sum message — to every neighbor not yet visited
in the current phase, enqueueing neighbors not already queued; finally the
node is appended to `visited`, and when the collect-phase queue empties the
visited sequence becomes the new queue (`forward = False`). -/
def stepP (G : FGraph) (gv : Expr → ℤ) (st : PState) : PState :=
  match st.queue with
  | [] => st
  | q0 :: qrest =>
    let node := if st.forward then q0 else (st.queue.getLast?).getD q0
    let rest := if st.forward then qrest else st.queue.dropLast
    let ms := if !st.forward && node.isVar && !(List.isEmpty (st.maxMail node)) then
        backTrack G gv st.maxMail st.maxStates node
      else st.maxStates
    let targets := List.filter (fun nbr => !(List.contains st.visited nbr)) (G.nbrs node)
    let acc := List.foldl (sendStep G node st.forward) (st.mail, st.maxMail, rest) targets
    let visited1 := st.visited ++ [node]
    if st.forward && List.isEmpty acc.2.2 then
      ⟨visited1, [], false, acc.1, acc.2.1, ms⟩
    else
      ⟨acc.2.2, visited1, st.forward, acc.1, acc.2.1, ms⟩

/-- State after `k` iterations of the propagation loop. -/
def runP (G : FGraph) (gv : Expr → ℤ) : ℕ → PState
  | 0 => initP G
  | k + 1 => stepP G gv (runP G gv k)

/-- Python `min` over a list of lengths (0 for the empty list, where the
Python `zip(*...)` of nothing yields nothing). -/
def minLen : List ℕ → ℕ
  | [] => 0
  | h :: t => t.foldl min h

/-- Final cell `configs = [{k: v for k, v in zip(max_states.keys(), states)}
for states in zip(*max_states.values())]`: the reported maximizing
configurations, one assignment (symbol, value) pair list per position,
truncated at the shortest accepted-value list. -/
def configsOf (ms : MaxStates) : List (List (ℕ × ℤ)) :=
  (List.range (minLen (ms.map (fun p => p.2.length)))).map
    (fun t => ms.map (fun p => (p.1, p.2.getD t 0)))

/-- Example graph E3: the path `x1 — fa — x2 — fb — x3` (a sub-shape of the
notebook's own example), root `x3`, every domain `{0, 1}`.
Ids: `x1 = V 1`, `x2 = V 2`, `x3 = V 3`, `fa = F 1`, `fb = F 2`. -/
def G3 : FGraph where
  nodes := [.V 1, .V 2, .V 3, .F 1, .F 2]
  nbrs := fun n =>
    match n with
    | .V 1 => [.F 1]
    | .V 2 => [.F 1, .F 2]
    | .V 3 => [.F 2]
    | .F 1 => [.V 1, .V 2]
    | .F 2 => [.V 2, .V 3]
    | _ => []
  vals := fun _ => [0, 1]
  root := .V 3

/-- Potentials for E3: `fa(a, b) = 2 + 3a + b + ab`, `fb(b, c) = 1 + 2b + c`
(arbitrary positive integer tables with no ties). -/
def pot3 : ℕ → List ℤ → ℤ
  | 1, [a, b] => 2 + 3 * a + b + a * b
  | 2, [b, c] => 1 + 2 * b + c
  | _, _ => 0

/-- Numeric evaluation `g` for E3 (no `log` node survives in any expression
of this run — the only logs taken are `log(1)`, which sympy evaluates to 0 —
so the interpretation of `log` is irrelevant and instantiated as 0). -/
def gv3 : Expr → ℤ := evalE pot3 (fun _ => 0) (fun _ => 0)

/-- Example graph E2 for tie-handling: a single factor `x — f — y`, root
`x`, domains `{0, 1}`.  Ids: `x = V 0` (root), `y = V 1`, `f = F 0`. -/
def G2 : FGraph where
  nodes := [.V 0, .V 1, .F 0]
  nbrs := fun n =>
    match n with
    | .V 0 => [.F 0]
    | .V 1 => [.F 0]
    | .F 0 => [.V 0, .V 1]
    | _ => []
  vals := fun _ => [0, 1]
  root := .V 0

/-- Potential for E2: `f(x, y) = 1 + x`, independent of `y` — so the joint
is maximized by BOTH `(x, y) = (1, 0)` and `(1, 1)` (a tie at the factor's
argmax, not at the root). -/
def pot2 : ℕ → List ℤ → ℤ
  | 0, [x, _y] => 1 + x
  | _, _ => 0

/-- Numeric evaluation `g` for E2. -/
def gv2 : Expr → ℤ := evalE pot2 (fun _ => 0) (fun _ => 0)

/-- Degenerate graph E9: one Factor with no neighboring Variables (the
`Graph` class accepts a factor with an empty neighbor list; the derived
node set is then just that factor).  The designated root is a Variable not
belonging to the graph — no Variable does. -/
def G9 : FGraph where
  nodes := [.F 0]
  nbrs := fun _ => []
  vals := fun _ => []
  root := .V 0

/-- Example graph E4: the same path shape as E3 (`x1 — fa — x2 — fb — x3`,
root `x3`, every domain `{0, 1}`, ids as in E3) but with tie-inducing
potentials, used to settle claim C2. -/
def G4 : FGraph where
  nodes := [.V 1, .V 2, .V 3, .F 1, .F 2]
  nbrs := fun n =>
    match n with
    | .V 1 => [.F 1]
    | .V 2 => [.F 1, .F 2]
    | .V 3 => [.F 2]
    | .F 1 => [.V 1, .V 2]
    | .F 2 => [.V 2, .V 3]
    | _ => []
  vals := fun _ => [0, 1]
  root := .V 3

/-- Potentials for E4: `fa(a, b) = 1 if b = 0 else 100` (a tie in `a` for
either value of `b`) and `fb(0,0) = 10`, `fb(1,1) = 9`, `fb = 1` otherwise.
The joint potential `fa * fb` has global maximum `100 * 9 = 900`, attained
by exactly the two assignments with `x2 = x3 = 1`. -/
def pot4 : ℕ → List ℤ → ℤ
  | 1, [_, b] => if b = 0 then 1 else 100
  | 2, [b, c] => if b = 0 ∧ c = 0 then 10 else if b = 1 ∧ c = 1 then 9 else 1
  | _, _ => 0

/-- Numeric evaluation `g` for E4.  As in E3, no `log` node survives in any
expression of this run (`aggregate_over_nbrs` discards the log-carrying
expression it is handed, and the only leaf max-message is `log(1) → 0`),
so the interpretation of `log` is irrelevant and instantiated as 0. -/
def gv4 : Expr → ℤ := evalE pot4 (fun _ => 0) (fun _ => 0)

/-- Reference notion for claim C2, written from the claim's own words: the
joint potential of the E4 graph at a joint assignment `[a, b, c]` of
`(x1, x2, x3)` is the product of the two factors' potentials there. -/
def joint4 : List ℤ → ℤ
  | [a, b, c] => pot4 1 [a, b] * pot4 2 [b, c]
  | _ => 0

/-- Mutable neighbor lists during graph construction: `vn i` is
`Variable V i`'s neighbor list, `fn j` is `Factor F j`'s.  (The embedding's
universe of candidate neighbors is `NId`; the claims about `add_neighbors`
concern Variables and Factors handed to the wrong side.) -/
structure GState where
  vn : ℕ → List NId
  fn : ℕ → List NId

/-- Abnormal outcomes of `add_neighbors`: `assertFail` is the failure of
`assert all([isinstance(n, self.required_nbr_type) for n in nbrs])`;
`fuelOut` models non-termination of the mutual recursion
`Factor.add_neighbors → nbr.add_neighbors → …` (CPython raises
`RecursionError`), which no finite recursion depth escapes. -/
inductive AddErr where
  | assertFail
  | fuelOut
  deriving DecidableEq

/-- `add_neighbors(nbrs)` invoked on node `who` with a list argument, at
recursion depth budget `fuel`.  On a Variable this is the inherited
`Node.add_neighbors`: assert every supplied neighbor is a Factor, then
extend the list.  On a Factor, `Factor.add_neighbors` FIRST calls
`nbr.add_neighbors([self])` on every supplied neighbor and only then runs
the inherited assert-and-extend (so a Factor supplied to a Factor re-enters
`Factor.add_neighbors` and recurses forever).  A Python exception leaves the
already-performed reciprocal insertions in place; the `Except` model
discards them, and no theorem below inspects post-exception state. -/
def addNbs : ℕ → NId → List NId → GState → Except AddErr GState
  | 0, _, _, _ => .error .fuelOut
  | _ + 1, .V i, ns, st =>
      if List.all ns (fun n => !n.isVar) then
        .ok ⟨fun k => if k = i then st.vn k ++ ns else st.vn k, st.fn⟩
      else .error .assertFail
  | fuel + 1, .F j, ns, st => do
      let st1 ← List.foldlM (fun s n => addNbs fuel n [.F j] s) st ns
      if List.all ns (fun n => n.isVar) then
        .ok ⟨st1.vn, fun k => if k = j then st1.fn k ++ ns else st1.fn k⟩
      else .error .assertFail

/-- Mutual consistency of the neighbor lists: a Factor stands in a
Variable's list exactly when the Variable stands in the Factor's. -/
def mutualNbrs (st : GState) : Prop :=
  ∀ i j : ℕ, (NId.F j ∈ st.vn i ↔ NId.V i ∈ st.fn j)

/-- Bipartiteness of the stored lists: Variables only list Factors and
Factors only list Variables. -/
def bipNbrs (st : GState) : Prop :=
  (∀ i : ℕ, ∀ n ∈ st.vn i, n.isVar = false) ∧
  (∀ j : ℕ, ∀ n ∈ st.fn j, n.isVar = true)

/-- Neighbor-list state with no edges. -/
def emptyG : GState := ⟨fun _ => [], fun _ => []⟩

/-- Evaluation of E3 expressions with the leftover symbol of `x2` set to 1
instead of 0 (the messages of the E3 run retain `x2`'s symbol). -/
def gv3b : Expr → ℤ := evalE pot3 (fun _ => 0) (fun j => if j = 2 then 1 else 0)

/-- Number of messages from source `a` in a mailbox. -/
def countSrc (a : NId) (l : List Msg) : ℕ :=
  (l.filter (fun m => m.src == a)).length

/-- Initial queue of the propagation loop (the non-root leaves). -/
def initQ (G : FGraph) : List NId :=
  List.filter (fun n => isChild G n && !(n == G.root)) G.nodes

/-- Bounded reachability closure along neighbor lists (used to state
connectivity decidably): grow the start set `k` times by adjacent graph
nodes. -/
def reachSet (G : FGraph) : ℕ → List NId → List NId
  | 0, s => s
  | k + 1, s => reachSet G k
      (s ++ G.nodes.filter (fun m => !(List.contains s m)
        && List.any s (fun n => List.contains (G.nbrs n) m)))

/-- Structural hypotheses on a constructed factor graph under which the
traversal claims are settled: a duplicate-free node set closed under
neighbor lists, duplicate-free neighbor lists, no self-loops, connectivity
(every node is reached from the initial leaf queue), and a nonempty initial
queue. -/
structure GraphH (G : FGraph) : Prop where
  nd : G.nodes.Nodup
  closed : ∀ n ∈ G.nodes, ∀ m ∈ G.nbrs n, m ∈ G.nodes
  nbrnd : ∀ n ∈ G.nodes, (G.nbrs n).Nodup
  irr : ∀ n ∈ G.nodes, n ∉ G.nbrs n
  conn : ∀ n ∈ G.nodes, n ∈ reachSet G G.nodes.length (initQ G)
  init_ne : initQ G ≠ []

/-- Invariant of the collect phase: the queue and visited sequence are
duplicate-free disjoint subsets of the node set, every neighbor of a
visited node is visited or queued, every initial leaf is visited or queued,
and each mailbox holds exactly one (sum- and max-) message from `a` at `b`
precisely when `a` has been processed and `b` was not visited strictly
before `a`. -/
structure FwdInv (G : FGraph) (st : PState) : Prop where
  fq : st.forward = true
  qsub : ∀ n ∈ st.queue, n ∈ G.nodes
  vsub : ∀ n ∈ st.visited, n ∈ G.nodes
  qnd : st.queue.Nodup
  vnd : st.visited.Nodup
  disj : ∀ n ∈ st.queue, n ∉ st.visited
  closed : ∀ n ∈ st.visited, ∀ m ∈ G.nbrs n, m ∈ st.visited ∨ m ∈ st.queue
  initin : ∀ n ∈ initQ G, n ∈ st.visited ∨ n ∈ st.queue
  mailcnt : ∀ a b, b ∈ G.nbrs a → countSrc a (st.mail b)
      = if a ∈ st.visited ∧ b ∉ st.visited.take (st.visited.indexOf a) then 1 else 0
  mailnon : ∀ a b, b ∉ G.nbrs a → countSrc a (st.mail b) = 0
  maxcnt : ∀ a b, b ∈ G.nbrs a → countSrc a (st.maxMail b)
      = if a ∈ st.visited ∧ b ∉ st.visited.take (st.visited.indexOf a) then 1 else 0
  maxnon : ∀ a b, b ∉ G.nbrs a → countSrc a (st.maxMail b) = 0

/-- State at the phase flip: the queue holds the collect-phase processing
order (duplicate-free, adjacency-closed, containing all initial leaves), the
visited sequence is empty, and the mailbox counts are those of the finished
collect phase read off against that order. -/
structure FlipInv (G : FGraph) (st : PState) : Prop where
  fq : st.forward = false
  vempty : st.visited = []
  qsub : ∀ n ∈ st.queue, n ∈ G.nodes
  qnd : st.queue.Nodup
  qclosed : ∀ n ∈ st.queue, ∀ m ∈ G.nbrs n, m ∈ st.queue
  initin : ∀ n ∈ initQ G, n ∈ st.queue
  mailcnt : ∀ a b, b ∈ G.nbrs a → countSrc a (st.mail b)
      = if a ∈ st.queue ∧ b ∉ st.queue.take (st.queue.indexOf a) then 1 else 0
  mailnon : ∀ a b, b ∉ G.nbrs a → countSrc a (st.mail b) = 0
  maxcnt : ∀ a b, b ∈ G.nbrs a → countSrc a (st.maxMail b)
      = if a ∈ st.queue ∧ b ∉ st.queue.take (st.queue.indexOf a) then 1 else 0
  maxnon : ∀ a b, b ∉ G.nbrs a → countSrc a (st.maxMail b) = 0

/-- Invariant of the distribute phase, relative to the collect-phase
processing order `V0` (the queue at the phase flip): after `j` distribute
steps the queue is the first `|V0| - j` entries of `V0`, the visited
sequence is the reversal of the processed suffix, max-sum mailboxes are
frozen at their flip values, and each sum-product mailbox holds the
collect message plus one distribute message from `a` at `b` exactly when
`a` has been processed backwards and `b` precedes `a` in `V0`. -/
structure BwdInv (G : FGraph) (V0 : List NId) (j : ℕ) (st : PState) : Prop where
  fq : st.forward = false
  qeq : st.queue = V0.take (V0.length - j)
  veq : st.visited = (V0.drop (V0.length - j)).reverse
  mailcnt : ∀ a b, b ∈ G.nbrs a → countSrc a (st.mail b)
      = (if a ∈ V0 ∧ b ∉ V0.take (V0.indexOf a) then 1 else 0)
      + (if a ∈ V0.drop (V0.length - j) ∧ b ∈ V0.take (V0.indexOf a) then 1 else 0)
  mailnon : ∀ a b, b ∉ G.nbrs a → countSrc a (st.mail b) = 0
  maxcnt : ∀ a b, b ∈ G.nbrs a → countSrc a (st.maxMail b)
      = if a ∈ V0 ∧ b ∉ V0.take (V0.indexOf a) then 1 else 0
  maxnon : ∀ a b, b ∉ G.nbrs a → countSrc a (st.maxMail b) = 0

section EvalLemmas

variable (pot : ℕ → List ℤ → ℤ) (lg : ℤ → ℤ) (env : ℕ → ℤ)

@[simp] theorem evalE_const (z : ℤ) : evalE pot lg env (.const z) = z := rfl

@[simp] theorem evalE_sym (i : ℕ) : evalE pot lg env (.sym i) = env i := rfl

@[simp] theorem evalE_logE (e : Expr) :
    evalE pot lg env (.logE e) = lg (evalE pot lg env e) := rfl

@[simp] theorem evalE_divE (a b : Expr) :
    evalE pot lg env (.divE a b) = evalE pot lg env a / evalE pot lg env b := rfl

theorem evalP_snd_chain (es : List Expr) :
    (evalP pot lg env (Expr.ofList es)).2 = es.map (evalE pot lg env) := by
  induction es with
  | nil => rfl
  | cons e es ih => simp [Expr.ofList, evalP, ih, evalE]

theorem evalE_addN_ofList (es : List Expr) :
    evalE pot lg env (.addN (.ofList es)) = (es.map (evalE pot lg env)).sum := by
  simp [evalE, evalP, evalP_snd_chain]

theorem evalE_mulN_ofList (es : List Expr) :
    evalE pot lg env (.mulN (.ofList es)) = (es.map (evalE pot lg env)).prod := by
  simp [evalE, evalP, evalP_snd_chain]

theorem evalE_maxN_ofList (es : List Expr) :
    evalE pot lg env (.maxN (.ofList es)) = maxListZ (es.map (evalE pot lg env)) := by
  simp [evalE, evalP, evalP_snd_chain]

theorem evalE_fapp_ofList (f : ℕ) (es : List Expr) :
    evalE pot lg env (.fapp f (.ofList es)) = pot f (es.map (evalE pot lg env)) := by
  simp [evalE, evalP, evalP_snd_chain]

theorem evalP_snd_toList (e : Expr) :
    (evalP pot lg env e).2 = e.toList.map (evalE pot lg env) := by
  induction e with
  | consE e es ihe ihes => simp [Expr.toList, evalP, ihes, evalE]
  | const z => rfl
  | sym i => rfl
  | nilE => rfl
  | fapp f args ih => rfl
  | addN args ih => rfl
  | mulN args ih => rfl
  | logE e ih => rfl
  | maxN args ih => rfl
  | divE a b iha ihb => rfl

theorem evalE_addArgs (e : Expr) :
    ((e.addArgs).map (evalE pot lg env)).sum = evalE pot lg env e := by
  cases e with
  | addN args => simp [Expr.addArgs, evalE, evalP, evalP_snd_toList]
  | const z => simp [Expr.addArgs]
  | sym i => simp [Expr.addArgs]
  | nilE => simp [Expr.addArgs, evalE, evalP]
  | consE a b => simp [Expr.addArgs, evalE, evalP]
  | fapp f args => simp [Expr.addArgs]
  | mulN args => simp [Expr.addArgs]
  | logE a => simp [Expr.addArgs]
  | maxN args => simp [Expr.addArgs]
  | divE a b => simp [Expr.addArgs]

theorem evalE_mulArgs (e : Expr) :
    ((e.mulArgs).map (evalE pot lg env)).prod = evalE pot lg env e := by
  cases e with
  | mulN args => simp [Expr.mulArgs, evalE, evalP, evalP_snd_toList]
  | const z => simp [Expr.mulArgs]
  | sym i => simp [Expr.mulArgs]
  | nilE => simp [Expr.mulArgs, evalE, evalP]
  | consE a b => simp [Expr.mulArgs, evalE, evalP]
  | fapp f args => simp [Expr.mulArgs]
  | addN args => simp [Expr.mulArgs]
  | logE a => simp [Expr.mulArgs]
  | maxN args => simp [Expr.mulArgs]
  | divE a b => simp [Expr.mulArgs]

theorem sum_split_consts (l : List Expr) :
    (l.map (evalE pot lg env)).sum
      = (l.filterMap Expr.constVal).sum
        + ((l.filter (fun e => ¬ e.isConst)).map (evalE pot lg env)).sum := by
  induction l with
  | nil => simp
  | cons e l ih =>
    cases e with
    | const z => simp [List.filterMap, Expr.constVal, Expr.isConst, ih]; ring
    | sym i => simp [Expr.constVal, Expr.isConst, ih]; ring
    | nilE => simp [Expr.constVal, Expr.isConst, ih]; ring
    | consE a b => simp [Expr.constVal, Expr.isConst, ih]; ring
    | fapp f args => simp [Expr.constVal, Expr.isConst, ih]; ring
    | addN args => simp [Expr.constVal, Expr.isConst, ih]; ring
    | mulN args => simp [Expr.constVal, Expr.isConst, ih]; ring
    | logE a => simp [Expr.constVal, Expr.isConst, ih]; ring
    | maxN args => simp [Expr.constVal, Expr.isConst, ih]; ring
    | divE a b => simp [Expr.constVal, Expr.isConst, ih]; ring

theorem prod_split_consts (l : List Expr) :
    (l.map (evalE pot lg env)).prod
      = (l.filterMap Expr.constVal).prod
        * ((l.filter (fun e => ¬ e.isConst)).map (evalE pot lg env)).prod := by
  induction l with
  | nil => simp
  | cons e l ih =>
    cases e with
    | const z => simp [Expr.constVal, Expr.isConst, ih]; ring
    | sym i => simp [Expr.constVal, Expr.isConst, ih]; ring
    | nilE => simp [Expr.constVal, Expr.isConst, ih]; ring
    | consE a b => simp [Expr.constVal, Expr.isConst, ih]; ring
    | fapp f args => simp [Expr.constVal, Expr.isConst, ih]; ring
    | addN args => simp [Expr.constVal, Expr.isConst, ih]; ring
    | mulN args => simp [Expr.constVal, Expr.isConst, ih]; ring
    | logE a => simp [Expr.constVal, Expr.isConst, ih]; ring
    | maxN args => simp [Expr.constVal, Expr.isConst, ih]; ring
    | divE a b => simp [Expr.constVal, Expr.isConst, ih]; ring

theorem evalE_flatten_add (es : List Expr) :
    ((es.foldr (fun e acc => e.addArgs ++ acc) []).map (evalE pot lg env)).sum
      = (es.map (evalE pot lg env)).sum := by
  induction es with
  | nil => simp
  | cons e es ih => simp [List.foldr, evalE_addArgs, ih]

theorem evalE_flatten_mul (es : List Expr) :
    ((es.foldr (fun e acc => e.mulArgs ++ acc) []).map (evalE pot lg env)).prod
      = (es.map (evalE pot lg env)).prod := by
  induction es with
  | nil => simp
  | cons e es ih => simp [List.foldr, evalE_mulArgs, ih]

theorem evalE_mkAdd (c : ℤ) (rest : List Expr) :
    evalE pot lg env (mkAdd c rest) = c + (rest.map (evalE pot lg env)).sum := by
  unfold mkAdd
  by_cases h : c = 0
  · subst h
    simp only [if_pos rfl]
    match rest with
    | [] => simp
    | [e] => simp
    | e1 :: e2 :: es' => simp [evalE_addN_ofList]
  · simp only [if_neg h]
    match rest with
    | [] => simp
    | e1 :: es' => simp [evalE_addN_ofList]

/-- sympy `Add` auto-evaluation preserves the value. -/
theorem evalE_sAddL (es : List Expr) :
    evalE pot lg env (sAddL es) = (es.map (evalE pot lg env)).sum := by
  rw [← evalE_flatten_add pot lg env es]
  rw [sum_split_consts pot lg env (es.foldr (fun e acc => e.addArgs ++ acc) [])]
  unfold sAddL
  rw [evalE_mkAdd]

theorem evalE_mkMul (c : ℤ) (rest : List Expr) :
    evalE pot lg env (mkMul c rest) = c * (rest.map (evalE pot lg env)).prod := by
  unfold mkMul
  by_cases h0 : c = 0
  · simp [h0]
  · simp only [if_neg h0]
    by_cases h1 : c = 1
    · subst h1
      simp only [if_pos rfl]
      match rest with
      | [] => simp
      | [e] => simp
      | e1 :: e2 :: es' => simp [evalE_mulN_ofList]
    · simp only [if_neg h1]
      match rest with
      | [] => simp
      | e1 :: es' => simp [evalE_mulN_ofList]

/-- sympy `Mul` auto-evaluation preserves the value. -/
theorem evalE_sMulL (es : List Expr) :
    evalE pot lg env (sMulL es) = (es.map (evalE pot lg env)).prod := by
  rw [← evalE_flatten_mul pot lg env es]
  rw [prod_split_consts pot lg env (es.foldr (fun e acc => e.mulArgs ++ acc) [])]
  unfold sMulL
  rw [evalE_mkMul]

theorem evalE_sAdd2 (a b : Expr) :
    evalE pot lg env (sAdd2 a b) = evalE pot lg env a + evalE pot lg env b := by
  simp [sAdd2, evalE_sAddL]

theorem evalE_sMul2 (a b : Expr) :
    evalE pot lg env (sMul2 a b) = evalE pot lg env a * evalE pot lg env b := by
  simp [sMul2, evalE_sMulL]

theorem evalE_sLog (hlg : lg 1 = 0) (e : Expr) :
    evalE pot lg env (sLog e) = lg (evalE pot lg env e) := by
  match e with
  | .const z =>
    by_cases h : z = 1
    · subst h; simp [sLog, hlg]
    · have : sLog (.const z) = .logE (.const z) := by
        unfold sLog
        split
        · rename_i heq
          cases heq
          exact absurd rfl h
        · rfl
      rw [this]; rfl
  | .sym i => rfl
  | .nilE => rfl
  | .consE a b => rfl
  | .fapp f args => rfl
  | .addN args => rfl
  | .mulN args => rfl
  | .logE a => rfl
  | .maxN args => rfl
  | .divE a b => rfl

theorem evalE_sMax (es : List Expr) :
    evalE pot lg env (sMax es) = maxListZ (es.map (evalE pot lg env)) := by
  match es with
  | [] => rfl
  | [e] => simp [sMax, maxListZ]
  | e1 :: e2 :: es' => simp [sMax, evalE_maxN_ofList]

end EvalLemmas

theorem addNbs_FF_diverges (j k : ℕ) :
    ∀ fuel st, addNbs fuel (.F j) [.F k] st = .error .fuelOut := by
  intro fuel
  induction fuel generalizing j k with
  | zero => intro st; rfl
  | succ fuel ih =>
    intro st
    simp only [addNbs, List.foldlM, ih k j st]
    rfl

theorem addNbs_foldl_char (j : ℕ) (fuel : ℕ) :
    ∀ (vs : List NId) (st st1 : GState),
      List.foldlM (fun s n => addNbs fuel n [.F j] s) st vs = .ok st1 →
      st1.fn = st.fn ∧
        ∀ k, st1.vn k = st.vn k ++ List.replicate (vs.count (NId.V k)) (NId.F j) := by
  intro vs
  induction vs with
  | nil =>
    intro st st1 h
    simp only [List.foldlM] at h
    cases h
    simp
  | cons n vs ih =>
    intro st st1 h
    simp only [List.foldlM] at h
    cases hn : addNbs fuel n [.F j] st with
    | error e => rw [hn] at h; simp only [Bind.bind, Except.bind] at h; cases h
    | ok s1 =>
      rw [hn] at h
      simp only [Bind.bind, Except.bind] at h
      have hstep : s1.fn = st.fn ∧
          ∀ k, s1.vn k = st.vn k ++ (if n = NId.V k then [NId.F j] else []) := by
        cases n with
        | F m => rw [addNbs_FF_diverges m j fuel st] at hn; cases hn
        | V i =>
          cases fuel with
          | zero => cases hn
          | succ fuel =>
            simp only [addNbs, NId.isVar, List.all_cons, List.all_nil,
              Bool.not_false, Bool.and_true] at hn
            cases hn
            refine ⟨rfl, fun k => ?_⟩
            by_cases hk : k = i
            · subst hk; simp
            · have hne : NId.V i ≠ NId.V k := by
                intro h; cases h; exact hk rfl
              simp [hk, hne]
      obtain ⟨hfn1, hvn1⟩ := hstep
      obtain ⟨hfn2, hvn2⟩ := ih s1 st1 h
      refine ⟨hfn2.trans hfn1, fun k => ?_⟩
      rw [hvn2 k, hvn1 k, List.append_assoc]
      congr 1
      by_cases hnk : n = NId.V k
      · subst hnk
        simp [List.count_cons, List.replicate_succ]
      · have hbeq : (n == NId.V k) = false := beq_eq_false_iff_ne.mpr hnk
        simp [hnk, List.count_cons, hbeq]

theorem addNbs_F_ok (j fuel : ℕ) (vs : List NId) (st st' : GState)
    (h : addNbs (fuel + 1) (.F j) vs st = .ok st') :
    (∀ n ∈ vs, n.isVar = true) ∧
    st'.fn j = st.fn j ++ vs ∧ (∀ k, k ≠ j → st'.fn k = st.fn k) ∧
    (∀ k, st'.vn k = st.vn k ++ List.replicate (vs.count (NId.V k)) (NId.F j)) := by
  simp only [addNbs] at h
  cases hf : List.foldlM (fun s n => addNbs fuel n [.F j] s) st vs with
  | error e => rw [hf] at h; simp only [Bind.bind, Except.bind] at h; cases h
  | ok st1 =>
    rw [hf] at h
    simp only [Bind.bind, Except.bind] at h
    obtain ⟨hfn, hvn⟩ := addNbs_foldl_char j fuel vs st st1 hf
    by_cases hall : List.all vs (fun n => n.isVar) = true
    · rw [if_pos hall] at h
      cases h
      refine ⟨by simpa [List.all_eq_true] using hall, ?_, ?_, ?_⟩
      · simp [hfn]
      · intro k hk; simp [hfn, hk]
      · intro k; exact hvn k
    · rw [if_neg hall] at h; cases h

theorem addNbs_V_char (fuel i : ℕ) (ns : List NId) (st : GState) :
    (addNbs (fuel + 1) (.V i) ns st = .error .assertFail ↔ ∃ n ∈ ns, n.isVar = true) ∧
    (∀ st', addNbs (fuel + 1) (.V i) ns st = .ok st' →
      st'.fn = st.fn ∧ st'.vn i = st.vn i ++ ns ∧ ∀ k, k ≠ i → st'.vn k = st.vn k) := by
  constructor
  · by_cases hall : List.all ns (fun n => !n.isVar) = true
    · simp only [addNbs, if_pos hall]
      constructor
      · intro h; cases h
      · intro ⟨n, hn, hvar⟩
        rw [List.all_eq_true] at hall
        have := hall n hn
        rw [hvar] at this
        cases this
    · simp only [addNbs, if_neg hall]
      constructor
      · intro _
        rw [List.all_eq_true] at hall
        push_neg at hall
        obtain ⟨n, hn, hvar⟩ := hall
        exact ⟨n, hn, by revert hvar; cases n.isVar <;> simp⟩
      · intro _; trivial
  · intro st' h
    by_cases hall : List.all ns (fun n => !n.isVar) = true
    · simp only [addNbs, if_pos hall] at h
      cases h
      exact ⟨rfl, by simp, fun k hk => by simp [hk]⟩
    · simp only [addNbs, if_neg hall] at h; cases h

theorem addNbs_ok_bip (fuel : ℕ) (who : NId) (ns : List NId) (st st' : GState)
    (hbip : bipNbrs st) (h : addNbs fuel who ns st = .ok st') : bipNbrs st' := by
  cases fuel with
  | zero => cases h
  | succ fuel =>
    cases who with
    | V i =>
      obtain ⟨hfn, hvni, hvnk⟩ := (addNbs_V_char fuel i ns st).2 st' h
      have hall : List.all ns (fun n => !n.isVar) = true := by
        by_contra hc
        simp only [addNbs, if_neg hc] at h
        cases h
      rw [List.all_eq_true] at hall
      refine ⟨fun k n hn => ?_, fun k n hn => ?_⟩
      · by_cases hk : k = i
        · subst hk
          rw [hvni] at hn
          rcases List.mem_append.mp hn with hn | hn
          · exact hbip.1 k n hn
          · have := hall n hn
            revert this; cases n.isVar <;> simp
        · rw [hvnk k hk] at hn
          exact hbip.1 k n hn
      · rw [hfn] at hn
        exact hbip.2 k n hn
    | F j =>
      obtain ⟨hvars, hfnj, hfnk, hvn⟩ := addNbs_F_ok j fuel ns st st' h
      refine ⟨fun k n hn => ?_, fun k n hn => ?_⟩
      · rw [hvn k] at hn
        rcases List.mem_append.mp hn with hn | hn
        · exact hbip.1 k n hn
        · rw [(List.mem_replicate.mp hn).2]; rfl
      · by_cases hk : k = j
        · subst hk
          rw [hfnj] at hn
          rcases List.mem_append.mp hn with hn | hn
          · exact hbip.2 k n hn
          · exact hvars n hn
        · rw [hfnk k hk] at hn
          exact hbip.2 k n hn

theorem addNbs_F_ok_mutual (j fuel : ℕ) (vs : List NId) (st st' : GState)
    (hmut : mutualNbrs st) (h : addNbs (fuel + 1) (.F j) vs st = .ok st') :
    mutualNbrs st' ∧ ∀ i, NId.V i ∈ vs → (NId.F j ∈ st'.vn i ∧ NId.V i ∈ st'.fn j) := by
  obtain ⟨hvars, hfnj, hfnk, hvn⟩ := addNbs_F_ok j fuel vs st st' h
  have hcnt : ∀ i, NId.V i ∈ vs ↔ 0 < vs.count (NId.V i) := by
    intro i; exact (List.count_pos_iff).symm
  have hmem : ∀ i j', NId.F j' ∈ st'.vn i ↔
      (NId.F j' ∈ st.vn i ∨ (j' = j ∧ NId.V i ∈ vs)) := by
    intro i j'
    rw [hvn i, List.mem_append, List.mem_replicate]
    constructor
    · rintro (h | ⟨hne, heq⟩)
      · exact Or.inl h
      · cases heq
        exact Or.inr ⟨rfl, (hcnt i).mpr (Nat.pos_of_ne_zero hne)⟩
    · rintro (h | ⟨rfl, hm⟩)
      · exact Or.inl h
      · exact Or.inr ⟨Nat.pos_iff_ne_zero.mp ((hcnt i).mp hm), rfl⟩
  refine ⟨fun i j' => ?_, fun i hi => ?_⟩
  · rw [hmem i j']
    by_cases hj : j' = j
    · subst hj
      rw [hfnj, List.mem_append]
      constructor
      · rintro (h | ⟨_, hm⟩)
        · exact Or.inl ((hmut i j').mp h)
        · exact Or.inr hm
      · rintro (h | hm)
        · exact Or.inl ((hmut i j').mpr h)
        · exact Or.inr ⟨rfl, hm⟩
    · rw [hfnk j' hj]
      constructor
      · rintro (h | ⟨hc, _⟩)
        · exact (hmut i j').mp h
        · exact absurd hc hj
      · intro h
        exact Or.inl ((hmut i j').mpr h)
  · constructor
    · rw [hmem i j]; exact Or.inr ⟨rfl, hi⟩
    · rw [hfnj, List.mem_append]; exact Or.inr hi

theorem msGet_cons_ne (a : ℕ) (l : List ℤ) (t : MaxStates) (k : ℕ) (h : a ≠ k) :
    msGet ((a, l) :: t) k = msGet t k := by
  simp [msGet, List.find?, beq_eq_false_iff_ne.mpr h]

theorem msGet_cons_eq (a : ℕ) (l : List ℤ) (t : MaxStates) :
    msGet ((a, l) :: t) a = l := by
  simp [msGet, List.find?]

theorem msAppend_cons_ne (a : ℕ) (l : List ℤ) (t : MaxStates) (k : ℕ) (vs : List ℤ)
    (h : a ≠ k) : msAppend ((a, l) :: t) k vs = (a, l) :: msAppend t k vs := by
  have hb : (a == k) = false := beq_eq_false_iff_ne.mpr h
  have hhead : (if ((a, l).1 == k) = true then ((a, l).1, (a, l).2 ++ vs) else (a, l))
      = (a, l) := by rw [hb]; simp
  have hcons : List.any ((a, l) :: t) (fun p => p.1 == k)
      = List.any t (fun p => p.1 == k) := by
    simp [List.any_cons, hb]
  by_cases ht : List.any t (fun p => p.1 == k) = true
  · rw [msAppend, hcons, if_pos ht, msAppend, if_pos ht]
    simp only [List.map, hhead]
  · rw [msAppend, hcons, if_neg ht, msAppend, if_neg ht]
    rfl

theorem msGet_msAppend_self (ms : MaxStates) (k : ℕ) (vs : List ℤ) :
    msGet (msAppend ms k vs) k = msGet ms k ++ vs := by
  induction ms with
  | nil => simp [msAppend, msGet, List.find?]
  | cons p t ih =>
    obtain ⟨a, l⟩ := p
    by_cases hak : a = k
    · subst hak
      have hany : List.any ((a, l) :: t) (fun p => p.1 == a) = true := by simp
      have hhead : (if ((a, l).1 == a) = true then ((a, l).1, (a, l).2 ++ vs) else (a, l))
          = (a, l ++ vs) := by simp
      rw [msAppend, if_pos hany]
      simp only [List.map, hhead]
      rw [msGet_cons_eq, msGet_cons_eq]
    · rw [msAppend_cons_ne a l t k vs hak, msGet_cons_ne a l _ k hak,
        msGet_cons_ne a l t k hak]
      exact ih

theorem msGet_map_preserve (t : MaxStates) (k k' : ℕ) (vs : List ℤ) (h : k' ≠ k) :
    msGet (List.map (fun p => if p.1 == k then (p.1, p.2 ++ vs) else p) t) k'
      = msGet t k' := by
  induction t with
  | nil => rfl
  | cons p t ih =>
    obtain ⟨a, l⟩ := p
    by_cases hak : a = k
    · subst hak
      have hk' : a ≠ k' := fun hc => h (hc ▸ rfl)
      have hhead : (if ((a, l).1 == a) = true then ((a, l).1, (a, l).2 ++ vs) else (a, l))
          = (a, l ++ vs) := by simp
      simp only [List.map, hhead]
      rw [msGet_cons_ne a (l ++ vs) _ k' hk', msGet_cons_ne a l t k' hk']
      exact ih
    · have hb : (a == k) = false := beq_eq_false_iff_ne.mpr hak
      have hhead : (if ((a, l).1 == k) = true then ((a, l).1, (a, l).2 ++ vs) else (a, l))
          = (a, l) := by
        rw [hb]; simp
      simp only [List.map, hhead]
      by_cases hak' : a = k'
      · subst hak'
        rw [msGet_cons_eq, msGet_cons_eq]
      · rw [msGet_cons_ne a l _ k' hak', msGet_cons_ne a l t k' hak']
        exact ih

theorem msGet_append_single_ne (ms : MaxStates) (k k' : ℕ) (vs : List ℤ)
    (h : k' ≠ k) : msGet (ms ++ [(k, vs)]) k' = msGet ms k' := by
  induction ms with
  | nil =>
    simp only [List.nil_append]
    rw [msGet_cons_ne k vs [] k' (fun hc => h hc.symm)]
  | cons p t ih =>
    obtain ⟨a, l⟩ := p
    by_cases hak' : a = k'
    · subst hak'
      rw [List.cons_append, msGet_cons_eq, msGet_cons_eq]
    · rw [List.cons_append, msGet_cons_ne a l _ k' hak', msGet_cons_ne a l t k' hak']
      exact ih

theorem msGet_msAppend_ne (ms : MaxStates) (k k' : ℕ) (vs : List ℤ) (h : k' ≠ k) :
    msGet (msAppend ms k vs) k' = msGet ms k' := by
  by_cases hany : List.any ms (fun p => p.1 == k) = true
  · simp only [msAppend, hany, if_pos rfl]
    exact msGet_map_preserve ms k k' vs h
  · rw [msAppend, if_neg hany]
    exact msGet_append_single_ne ms k k' vs h

theorem msGet_append_touch (ms : MaxStates) (k : ℕ) :
    msGet (ms ++ [(k, [])]) k = msGet ms k := by
  induction ms with
  | nil =>
    simp only [List.nil_append]
    rw [msGet_cons_eq]
    rfl
  | cons p t ih =>
    obtain ⟨a, l⟩ := p
    by_cases hak : a = k
    · subst hak
      rw [List.cons_append, msGet_cons_eq, msGet_cons_eq]
    · rw [List.cons_append, msGet_cons_ne a l _ k hak, msGet_cons_ne a l t k hak]
      exact ih

theorem msGet_msTouch (ms : MaxStates) (k k' : ℕ) :
    msGet (msTouch ms k') k = msGet ms k := by
  by_cases hany : List.any ms (fun p => p.1 == k') = true
  · simp [msTouch, hany]
  · rw [msTouch, if_neg hany]
    by_cases hk : k = k'
    · subst hk
      exact msGet_append_touch ms k
    · exact msGet_append_single_ne ms k' k [] hk

theorem foldl_max_mem (t : List ℤ) : ∀ h : ℤ, t.foldl max h ∈ h :: t := by
  induction t with
  | nil => intro h; simp
  | cons a t ih =>
    intro h
    simp only [List.foldl_cons]
    rcases List.mem_cons.mp (ih (max h a)) with hm | hm
    · rw [hm]
      rcases max_choice h a with hc | hc <;> rw [hc] <;> simp
    · simp [hm]

theorem maxListZ_mem (l : List ℤ) (hne : l ≠ []) : maxListZ l ∈ l := by
  match l with
  | [] => exact absurd rfl hne
  | h :: t => exact foldl_max_mem t h

theorem backTrack_fold_msGet (G : FGraph) (i : ℕ) :
    ∀ (exprs : List Expr) (ms : MaxStates),
      msGet (btPropagate G i ms exprs) i = msGet ms i := by
  intro exprs
  unfold btPropagate
  induction exprs with
  | nil => intro ms; rfl
  | cons fac rest ih =>
    intro ms
    rw [List.foldl_cons, ih]
    cases fac with
    | fapp f args =>
      simp only []
      cases hflt : List.filter (fun p => ¬ p.1 == i)
          (List.zip ((G.nbrs (.F f)).map varIdOf)
            (args.toList.map (fun a => a.constVal.getD 0))) with
      | nil => rfl
      | cons p ps =>
        cases ps with
        | nil =>
          have hp : p ∈ List.filter (fun p => ¬ p.1 == i)
              (List.zip ((G.nbrs (.F f)).map varIdOf)
                (args.toList.map (fun a => a.constVal.getD 0))) := by
            rw [hflt]; simp
          have hpi : ¬ p.1 == i := by
            have := List.of_mem_filter hp
            simpa using this
          rw [msGet_msAppend_ne _ p.1 i [p.2] (by simpa using fun hc => hpi (by simp [hc]))]
        | cons q qs => rfl
    | const z => rfl
    | sym j => rfl
    | nilE => rfl
    | consE a b => rfl
    | addN a => rfl
    | mulN a => rfl
    | logE a => rfl
    | maxN a => rfl
    | divE a b => rfl

theorem backTrack_root_accepts (G : FGraph) (gv : Expr → ℤ) (mm : NId → List Msg)
    (ms : MaxStates) :
    msGet (backTrack G gv mm ms G.root) (varIdOf G.root)
      = msGet ms (varIdOf G.root) ++ btWinners G gv mm G.root := by
  unfold backTrack
  simp only [if_pos rfl]
  have houter : ∀ (vsl : List ℤ) (ms0 : MaxStates),
      msGet (List.foldl (fun ms v =>
        btPropagate G (varIdOf G.root) ms
          (getArgmaxes gv (subsE (varIdOf G.root) v (btCombined mm G.root))))
        ms0 vsl) (varIdOf G.root) = msGet ms0 (varIdOf G.root) := by
    intro vsl
    induction vsl with
    | nil => intro ms0; rfl
    | cons v vsl ih =>
      intro ms0
      rw [List.foldl_cons, ih, backTrack_fold_msGet]
  rw [houter, msGet_msTouch, if_pos trivial, msGet_msAppend_self]

theorem evalE_foldl_sAdd2 (pot : ℕ → List ℤ → ℤ) (lg : ℤ → ℤ) (env : ℕ → ℤ)
    (f : ℤ → Expr) (l : List ℤ) :
    ∀ a : Expr, evalE pot lg env (l.foldl (fun acc v => sAdd2 acc (f v)) a)
      = evalE pot lg env a + (l.map (fun v => evalE pot lg env (f v))).sum := by
  induction l with
  | nil => intro a; simp
  | cons v l ih =>
    intro a
    rw [List.foldl_cons, ih, evalE_sAdd2]
    simp [add_assoc]

theorem margZ_eval (pot : ℕ → List ℤ → ℤ) (lg : ℤ → ℤ) (env : ℕ → ℤ)
    (G : FGraph) (mail : NId → List Msg) (i : ℕ) :
    evalE pot lg env (margZ G mail i)
      = ((G.vals i).map (fun v => evalE pot lg env (margNum mail i v))).sum := by
  rw [margZ, evalE_foldl_sAdd2]
  simp

theorem list_sum_div_right (l : List ℚ) (Z : ℚ) :
    (l.map (fun a => a / Z)).sum = l.sum / Z := by
  induction l with
  | nil => simp
  | cons a t ih => rw [List.map_cons, List.sum_cons, List.sum_cons, ih, add_div]

/-- Claim C1 (code bug): `compute_message` from a non-leaf Variable takes
the product of ALL messages the Variable holds, never excluding a message
previously received from the destination.  In the E3 run, the distribute
phase pops `x2` at iteration 7 (holding messages from both `fa` and `fb`)
and sends to `fa`; the deposited outgoing message evaluates, at `x2 = 0`,
to 147 while the product of the messages from factors other than `fa`
(here: the one from `fb`) evaluates to 21 — and at `x2 = 1` to 700 versus
70.  So the outgoing value is NOT the product of the other factors'
messages, contradicting the claimed (and standard sum-product) rule; the
collect-phase sends do satisfy it, because no destination message has been
received yet. -/
theorem claim_C1 :
    ((runP G3 gv3 7).forward = false ∧
      (runP G3 gv3 7).queue.getLast? = some (.V 2) ∧
      (runP G3 gv3 7).mail (.V 2) = (runP G3 gv3 10).mail (.V 2) ∧
      (((runP G3 gv3 10).mail (.V 2)).filter (fun m => m.src == .F 1)).length = 1) ∧
    ((((runP G3 gv3 10).mail (.F 1)).filter (fun m => m.src == .V 2)).map
        (fun m => gv3 m.expr) = [147] ∧
      (((runP G3 gv3 10).mail (.V 2)).filter (fun m => !(m.src == .F 1))).map
        (fun m => gv3 m.expr) = [21] ∧
      (147 : ℤ) ≠ 21) ∧
    ((((runP G3 gv3 10).mail (.F 1)).filter (fun m => m.src == .V 2)).map
        (fun m => gv3b m.expr) = [700] ∧
      (((runP G3 gv3 10).mail (.V 2)).filter (fun m => !(m.src == .F 1))).map
        (fun m => gv3b m.expr) = [70] ∧
      (700 : ℤ) ≠ 70) := by
  decide

/-- Claim C3 (code bug): after the E3 run every Variable passes the
marginal precondition, yet the partition constant Z is NOT the same at
every Variable: at `x2` it is the closed number 847, while at `x1` the Z
expression still contains the free symbol of `x2` (so it is not even a
number) and evaluates to 2499 under the all-zeros environment.  The root
cause is the same missing exclusion as in C1: distribute-phase messages
double-count subtree factors and leave unsubstituted symbols behind. -/
theorem claim_C3 :
    ((marginal G3 ((runP G3 gv3 10).mail) 1 0).isOk = true ∧
      (marginal G3 ((runP G3 gv3 10).mail) 2 0).isOk = true ∧
      (marginal G3 ((runP G3 gv3 10).mail) 3 0).isOk = true) ∧
    (gv3 (margZ G3 ((runP G3 gv3 10).mail) 2) = 847 ∧
      gv3 (margZ G3 ((runP G3 gv3 10).mail) 1) = 2499 ∧
      (847 : ℤ) ≠ 2499) ∧
    (containsSym 2 (margZ G3 ((runP G3 gv3 10).mail) 1) = true ∧
      containsSym 2 (margZ G3 ((runP G3 gv3 10).mail) 2) = false) := by
  decide

/-- Claim C5 (confirmed): `Variable.marginal(val)` errors exactly when the
received message count differs from the neighbor count or `val` lies
outside the declared domain, and otherwise returns the expression
`p_tilde / Z` (the embedding is a pure function of the mailbox, as the
Python method only reads state). -/
theorem claim_C5 (G : FGraph) (mail : NId → List Msg) (i : ℕ) (val : ℤ) :
    ((∃ e, marginal G mail i val = .error e) ↔
      ((mail (.V i)).length ≠ (G.nbrs (.V i)).length ∨ val ∉ G.vals i)) ∧
    (((mail (.V i)).length = (G.nbrs (.V i)).length ∧ val ∈ G.vals i) →
      marginal G mail i val = .ok (.divE (margNum mail i val) (margZ G mail i))) := by
  by_cases h1 : (mail (.V i)).length = (G.nbrs (.V i)).length
  · by_cases h2 : val ∈ G.vals i
    · have hok : marginal G mail i val
          = .ok (.divE (margNum mail i val) (margZ G mail i)) := by
        rw [marginal, if_neg (by simpa using h1), if_neg (by simpa using h2)]
      refine ⟨⟨fun he => ?_, fun hc => ?_⟩, fun _ => hok⟩
      · obtain ⟨e, he⟩ := he
        rw [hok] at he
        cases he
      · rcases hc with hc | hc
        · exact absurd h1 hc
        · exact absurd h2 hc
    · have herr : marginal G mail i val = .error .notInSupport := by
        rw [marginal, if_neg (by simpa using h1), if_pos (by simpa using h2)]
      exact ⟨⟨fun _ => Or.inr h2, fun _ => ⟨_, herr⟩⟩, fun hc => absurd hc.2 h2⟩
  · have herr : marginal G mail i val = .error .incomplete := by
      rw [marginal, if_pos (by simpa using h1)]
    exact ⟨⟨fun _ => Or.inl h1, fun _ => ⟨_, herr⟩⟩, fun hc => absurd hc.1 h1⟩

/-- Witness for C5 at a concrete input: with empty mailboxes, querying the
marginal of `x1` of E3 errors (one neighbor, zero messages). -/
theorem claim_C5_witness : ∃ e, marginal G3 (fun _ => []) 1 0 = .error e :=
  (claim_C5 G3 (fun _ => []) 1 0).1.mpr (Or.inl (by decide))

/-- Claim C7 (confirmed): a leaf (single-neighbor) node's outgoing
sum-product message is the factor's potential applied to its neighbors (a
leaf Factor) or the constant 1 (a leaf Variable), and the outgoing max-sum
message is `sympy.log` of that same expression — which for a leaf Variable
auto-evaluates to the constant 0; semantically the max-sum leaf message
evaluates to `lg` of the sum-product leaf message under any interpretation
`lg` of the natural logarithm with `lg 1 = 0`. -/
theorem claim_C7 (G : FGraph) (mail : NId → List Msg) (n tgt : NId)
    (h : isChild G n = true) :
    ((computeMessage G mail n tgt).expr = srcExpr G n ∧
      (computeMaxMessage G mail n tgt).expr = sLog (srcExpr G n)) ∧
    (∀ j, n = .F j → (computeMessage G mail n tgt).expr
        = .fapp j (.ofList ((G.nbrs n).map (fun m => Expr.sym (varIdOf m))))) ∧
    (∀ i, n = .V i → (computeMessage G mail n tgt).expr = .const 1 ∧
      (computeMaxMessage G mail n tgt).expr = .const 0) ∧
    (∀ pot lg env, lg 1 = 0 →
      evalE pot lg env (computeMaxMessage G mail n tgt).expr
        = lg (evalE pot lg env (computeMessage G mail n tgt).expr)) := by
  have hmsg : (computeMessage G mail n tgt).expr = srcExpr G n := by
    rw [computeMessage, if_pos h]
  have hmax : (computeMaxMessage G mail n tgt).expr = sLog (srcExpr G n) := by
    rw [computeMaxMessage, if_pos h]
  refine ⟨⟨hmsg, hmax⟩, fun j hj => ?_, fun i hi => ?_, fun pot lg env hlg => ?_⟩
  · rw [hmsg, hj]; rfl
  · rw [hmsg, hmax, hi]; exact ⟨rfl, rfl⟩
  · rw [hmsg, hmax]; exact evalE_sLog pot lg env hlg (srcExpr G n)

/-- Witness for C7 at concrete leaves of E3: the leaf Variable `x1` sends
the constant 1 and max-sum constant 0. -/
theorem claim_C7_witness :
    (computeMessage G3 (fun _ => []) (.V 1) (.F 1)).expr = .const 1 ∧
    (computeMaxMessage G3 (fun _ => []) (.V 1) (.F 1)).expr = .const 0 :=
  (claim_C7 G3 (fun _ => []) (.V 1) (.F 1) (by decide)).2.2.1 1 rfl

/-- Claim C8 (confirmed): for a Variable passing the marginal precondition
(message count equals neighbor count) whose partition sum Z evaluates to a
nonzero number, the normalized marginals sum to exactly 1 over the domain
(in exact rational arithmetic, interpreting the single division of
`marginal` in ℚ). -/
theorem claim_C8 (G : FGraph) (mail : NId → List Msg) (i : ℕ)
    (pot : ℕ → List ℤ → ℤ) (lg : ℤ → ℤ) (env : ℕ → ℤ)
    (hlen : (mail (.V i)).length = (G.nbrs (.V i)).length)
    (hZ : evalE pot lg env (margZ G mail i) ≠ 0) :
    ((G.vals i).map (fun v =>
      margVal pot lg env ((marginal G mail i v).toOption.getD (.const 0)))).sum = 1 := by
  have hok : ∀ v ∈ G.vals i, (marginal G mail i v).toOption.getD (.const 0)
      = .divE (margNum mail i v) (margZ G mail i) := by
    intro v hv
    rw [marginal, if_neg (by simpa using hlen), if_neg (by simpa using hv)]
    rfl
  have hmap : (G.vals i).map (fun v =>
        margVal pot lg env ((marginal G mail i v).toOption.getD (.const 0)))
      = (G.vals i).map (fun v =>
        ((evalE pot lg env (margNum mail i v) : ℤ) : ℚ)
          / ((evalE pot lg env (margZ G mail i) : ℤ) : ℚ)) := by
    apply List.map_congr_left
    intro v hv
    rw [hok v hv]
    rfl
  rw [hmap]
  have hcomp : (G.vals i).map (fun v =>
        ((evalE pot lg env (margNum mail i v) : ℤ) : ℚ)
          / ((evalE pot lg env (margZ G mail i) : ℤ) : ℚ))
      = ((G.vals i).map (fun v =>
          ((evalE pot lg env (margNum mail i v) : ℤ) : ℚ))).map
        (fun a => a / ((evalE pot lg env (margZ G mail i) : ℤ) : ℚ)) := by
    rw [List.map_map]
    rfl
  rw [hcomp, list_sum_div_right]
  have hsum : ((G.vals i).map (fun v =>
      ((evalE pot lg env (margNum mail i v) : ℤ) : ℚ))).sum
      = ((evalE pot lg env (margZ G mail i) : ℤ) : ℚ) := by
    rw [margZ_eval]
    generalize (G.vals i) = l
    induction l with
    | nil => simp
    | cons a t ih => simp [ih]
  rw [hsum]
  exact div_self (by exact_mod_cast hZ)

/-- Witness for C8 at the fully-propagated `x2` of the E3 run: message
count 2 equals neighbor count 2 and Z evaluates to 847 ≠ 0, so the
normalized marginals of `x2` sum to exactly 1. -/
theorem claim_C8_witness :
    ((G3.vals 2).map (fun v =>
      margVal pot3 (fun _ => 0) (fun _ => 0)
        ((marginal G3 ((runP G3 gv3 10).mail) 2 v).toOption.getD (.const 0)))).sum = 1 :=
  claim_C8 G3 ((runP G3 gv3 10).mail) 2 pot3 (fun _ => 0) (fun _ => 0)
    (by decide) (by decide)

/-- Claim C2: refuted (code bug).  On the tied path graph E4 the loop
terminates having reported exactly ONE configuration, `x1 = 1, x2 = 0,
x3 = 0`, whose joint potential is 10 — while the global maximum 900 of the
joint potential is attained by exactly TWO assignments (`x2 = x3 = 1` with
either value of `x1`).  The claim's premise holds (more than one globally
maximizing assignment), yet not only is some maximizing assignment left
unreported: no reported configuration is a global maximizer at all. -/
theorem claim_C2 :
    (runP G4 gv4 10).queue = []
    ∧ configsOf (runP G4 gv4 10).maxStates = [[(3, 0), (2, 0), (1, 1)]]
    ∧ maxListZ ((cartesian [G4.vals 1, G4.vals 2, G4.vals 3]).map joint4) = 900
    ∧ (cartesian [G4.vals 1, G4.vals 2, G4.vals 3]).filter
        (fun c => joint4 c == 900) = [[0, 1, 1], [1, 1, 1]]
    ∧ joint4 [1, 0, 0] = 10
    ∧ (∀ cfg ∈ configsOf (runP G4 gv4 10).maxStates,
        joint4 [(cfg.lookup 1).getD 0, (cfg.lookup 2).getD 0,
          (cfg.lookup 3).getD 0] ≠ 900) := by
  decide

/-- Claim C4 counterexample: in the E3 run the loop terminates with `x1`
holding ZERO max-sum messages although it has one neighboring Factor
(`fa`) — max-sum messages are only attached during the collect phase
(`if forward:`), and `fa` only messaged `x1` during distribute. -/
theorem claim_C4_counterexample :
    (runP G3 gv3 10).queue = [] ∧
    G3.nbrs (.V 1) = [.F 1] ∧
    ((runP G3 gv3 10).mail (.V 1)).length = 1 ∧
    ((runP G3 gv3 10).maxMail (.V 1)).length = 0 := by
  decide

/-- Claim C9 counterexample: the graph E9 — a single Factor with no
neighboring Variables, a legal `Graph` instance — is finite, connected and
acyclic, yet the propagation loop terminates having dequeued NOTHING: the
initial queue is empty (the factor has no neighbors, so it is not a child),
the phase never flips and the visited sequence stays empty, so its node is
not processed exactly once per phase. -/
theorem claim_C9_counterexample :
    (.F 0) ∈ G9.nodes ∧
    (runP G9 gv2 5).queue = [] ∧
    (runP G9 gv2 5).visited = [] ∧
    (runP G9 gv2 5).forward = true := by
  decide

/-- Claim C6 counterexample: invoking `add_neighbors` on a VARIABLE is the
inherited `Node.add_neighbors`, which only extends the Variable's own list:
after `x0.add_neighbors([f0])` on a fresh graph, `x0` lists `f0` but `f0`
does not list `x0` — the insertion is not reciprocal when invoked on the
Variable side. -/
theorem claim_C6_counterexample :
    ((addNbs 9 (.V 0) [.F 0] emptyG).toOption.map
      (fun s => (s.vn 0, s.fn 0))) = some ([.F 0], []) := by
  decide

/-- Claim C6 (corrected): only `Factor.add_neighbors` registers edges
reciprocally — a successful factor-side insertion adds the Factor to each
supplied Variable's list and the Variables to the Factor's list, and
preserves mutual consistency of the whole state; the Variable-side
insertion is one-sided (see the counterexample). -/
theorem claim_C6 (fuel j : ℕ) (vs : List NId) (st st' : GState)
    (hmut : mutualNbrs st) (h : addNbs (fuel + 1) (.F j) vs st = .ok st') :
    mutualNbrs st' ∧
    ∀ i, NId.V i ∈ vs → (NId.F j ∈ st'.vn i ∧ NId.V i ∈ st'.fn j) :=
  addNbs_F_ok_mutual j fuel vs st st' hmut h

/-- Witness for C6: inserting `x1` as a neighbor of factor `f0` on the
fresh (trivially consistent) state succeeds and registers both directions. -/
theorem claim_C6_witness :
    mutualNbrs
      (GState.mk (fun k => if k = 1 then [NId.F 0] else [])
        (fun k => if k = 0 then [NId.V 1] else [])) ∧
    NId.F 0 ∈ (GState.mk (fun k => if k = 1 then [NId.F 0] else [])
        (fun k => if k = 0 then [NId.V 1] else [])).vn 1 := by
  have hmut : mutualNbrs emptyG := by
    intro i j
    simp [emptyG]
  have hok : addNbs 3 (.F 0) [.V 1] emptyG
      = .ok (GState.mk (fun k => if k = 1 then [NId.F 0] else [])
        (fun k => if k = 0 then [NId.V 1] else [])) := by
    rfl
  have := claim_C6 2 0 [.V 1] emptyG _ hmut hok
  exact ⟨this.1, (this.2 1 (by decide)).1⟩

/-- Claim C10 counterexample: handing a FACTOR to `Factor.add_neighbors`
does not raise the type assertion: the reciprocal call re-enters
`Factor.add_neighbors` and the two factors call each other forever
(CPython: `RecursionError`), so no recursion depth returns the claimed
assertion failure. -/
theorem claim_C10_counterexample :
    addNbs 100 (.F 0) [.F 1] emptyG = .error .fuelOut ∧
    addNbs 200 (.F 0) [.F 1] emptyG = .error .fuelOut ∧
    AddErr.fuelOut ≠ AddErr.assertFail :=
  ⟨addNbs_FF_diverges 0 1 100 emptyG, addNbs_FF_diverges 0 1 200 emptyG, by decide⟩

/-- Claim C10 (corrected): (a) on a VARIABLE, `add_neighbors` raises the
assertion failure exactly when some supplied neighbor is not a Factor;
(b) on a Factor, a Factor argument yields unbounded mutual recursion (never
an assertion failure) at every recursion depth; (c) any sequence of
SUCCESSFUL `add_neighbors` calls preserves bipartiteness: every neighbor of
a Variable is a Factor and every neighbor of a Factor is a Variable. -/
theorem claim_C10 :
    (∀ (fuel i : ℕ) (ns : List NId) (st : GState),
      addNbs (fuel + 1) (.V i) ns st = .error .assertFail ↔ ∃ n ∈ ns, n.isVar = true) ∧
    (∀ (fuel j k : ℕ) (st : GState),
      addNbs fuel (.F j) [.F k] st = .error .fuelOut) ∧
    (∀ (fuel : ℕ) (who : NId) (ns : List NId) (st st' : GState),
      bipNbrs st → addNbs fuel who ns st = .ok st' → bipNbrs st') :=
  ⟨fun fuel i ns st => (addNbs_V_char fuel i ns st).1,
   fun fuel j k st => addNbs_FF_diverges j k fuel st,
   addNbs_ok_bip⟩

/-- Witness for C10: the assertion-failure iff applied at a Variable handed
another Variable, and bipartiteness preservation applied to a successful
factor-side insertion on the empty state. -/
theorem claim_C10_witness :
    (∃ n ∈ [NId.V 3], NId.isVar n = true) ∧
    bipNbrs
      (GState.mk (fun k => if k = 1 then [NId.F 0] else [])
        (fun k => if k = 0 then [NId.V 1] else [])) := by
  constructor
  · exact (claim_C10.1 0 0 [.V 3] emptyG).mp rfl
  · refine claim_C10.2.2 3 (.F 0) [.V 1] emptyG _ ?_ ?_
    · constructor
      · intro i n hn
        simp [emptyG] at hn
      · intro j n hn
        simp [emptyG] at hn
    · rfl

theorem reachSet_subset_closed (G : FGraph) (T : List NId)
    (hT : ∀ n ∈ T, ∀ m ∈ G.nbrs n, m ∈ G.nodes → m ∈ T) :
    ∀ (k : ℕ) (s : List NId), (∀ n ∈ s, n ∈ T) → ∀ n ∈ reachSet G k s, n ∈ T := by
  intro k
  induction k with
  | zero => intro s hs n hn; exact hs n hn
  | succ k ih =>
    intro s hs n hn
    rw [reachSet] at hn
    refine ih _ ?_ n hn
    intro m hm
    rcases List.mem_append.mp hm with hm | hm
    · exact hs m hm
    · have hflt := List.mem_filter.mp hm
      have hnode : m ∈ G.nodes := hflt.1
      have hadj : List.any s (fun n => List.contains (G.nbrs n) m) = true := by
        have := hflt.2
        simp only [Bool.and_eq_true] at this
        exact this.2
      obtain ⟨n0, hn0, hcont⟩ := List.any_eq_true.mp hadj
      exact hT n0 (hs n0 hn0) m (by simpa using hcont) hnode

theorem computeMessage_src (G : FGraph) (mail : NId → List Msg) (frm tgt : NId) :
    (computeMessage G mail frm tgt).src = frm ∧
    (computeMessage G mail frm tgt).dst = tgt := by
  rw [computeMessage]
  by_cases h : isChild G frm = true
  · rw [if_pos h]; exact ⟨rfl, rfl⟩
  · rw [if_neg h]
    cases frm with
    | V i => exact ⟨rfl, rfl⟩
    | F j => exact ⟨rfl, rfl⟩

theorem computeMaxMessage_src (G : FGraph) (mail : NId → List Msg) (frm tgt : NId) :
    (computeMaxMessage G mail frm tgt).src = frm ∧
    (computeMaxMessage G mail frm tgt).dst = tgt := by
  rw [computeMaxMessage]
  by_cases h : isChild G frm = true
  · rw [if_pos h]; exact ⟨rfl, rfl⟩
  · rw [if_neg h]
    cases frm with
    | V i => exact ⟨rfl, rfl⟩
    | F j => exact ⟨rfl, rfl⟩

theorem sendStep_fold_mail_nin (G : FGraph) (frm : NId) (fwd : Bool) :
    ∀ (ts : List NId) (acc : (NId → List Msg) × (NId → List Msg) × List NId)
      (b : NId), b ∉ ts →
      (List.foldl (sendStep G frm fwd) acc ts).1 b = acc.1 b := by
  intro ts
  induction ts with
  | nil => intro acc b _; rfl
  | cons t ts ih =>
    intro acc b hb
    rw [List.foldl_cons]
    rw [ih _ b (fun hc => hb (List.mem_cons_of_mem _ hc))]
    have hbt : b ≠ t := fun hc => hb (hc ▸ List.mem_cons_self t ts)
    simp only [sendStep]
    rw [if_neg hbt]

theorem sendStep_fold_maxMail_nin (G : FGraph) (frm : NId) (fwd : Bool) :
    ∀ (ts : List NId) (acc : (NId → List Msg) × (NId → List Msg) × List NId)
      (b : NId), b ∉ ts →
      (List.foldl (sendStep G frm fwd) acc ts).2.1 b = acc.2.1 b := by
  intro ts
  induction ts with
  | nil => intro acc b _; rfl
  | cons t ts ih =>
    intro acc b hb
    rw [List.foldl_cons]
    rw [ih _ b (fun hc => hb (List.mem_cons_of_mem _ hc))]
    have hbt : b ≠ t := fun hc => hb (hc ▸ List.mem_cons_self t ts)
    simp only [sendStep]
    cases fwd with
    | true => rw [if_pos rfl]; rw [if_neg hbt]
    | false => rfl

theorem sendStep_fold_mail_in (G : FGraph) (frm : NId) (fwd : Bool) :
    ∀ (ts : List NId) (acc : (NId → List Msg) × (NId → List Msg) × List NId)
      (b : NId), ts.Nodup → b ∈ ts →
      ∃ msg : Msg, msg.src = frm ∧ msg.dst = b ∧
        (List.foldl (sendStep G frm fwd) acc ts).1 b = acc.1 b ++ [msg] := by
  intro ts
  induction ts with
  | nil => intro acc b _ hb; cases hb
  | cons t ts ih =>
    intro acc b hnd hb
    have hndt := List.nodup_cons.mp hnd
    rw [List.foldl_cons]
    rcases List.mem_cons.mp hb with hbt | hbts
    · subst hbt
      rw [sendStep_fold_mail_nin G frm fwd ts _ b hndt.1]
      refine ⟨computeMessage G acc.1 frm b, (computeMessage_src G acc.1 frm b).1,
        (computeMessage_src G acc.1 frm b).2, ?_⟩
      simp [sendStep]
    · have hbt : b ≠ t := fun hc => hndt.1 (hc ▸ hbts)
      obtain ⟨msg, hsrc, hdst, heq⟩ := ih (sendStep G frm fwd acc t) b hndt.2 hbts
      refine ⟨msg, hsrc, hdst, ?_⟩
      rw [heq]
      simp [sendStep, hbt]

theorem sendStep_fold_maxMail_in_true (G : FGraph) (frm : NId) :
    ∀ (ts : List NId) (acc : (NId → List Msg) × (NId → List Msg) × List NId)
      (b : NId), ts.Nodup → b ∈ ts →
      ∃ msg : Msg, msg.src = frm ∧ msg.dst = b ∧
        (List.foldl (sendStep G frm true) acc ts).2.1 b = acc.2.1 b ++ [msg] := by
  intro ts
  induction ts with
  | nil => intro acc b _ hb; cases hb
  | cons t ts ih =>
    intro acc b hnd hb
    have hndt := List.nodup_cons.mp hnd
    rw [List.foldl_cons]
    rcases List.mem_cons.mp hb with hbt | hbts
    · subst hbt
      rw [sendStep_fold_maxMail_nin G frm true ts _ b hndt.1]
      refine ⟨computeMaxMessage G
          (fun n => if n = b then acc.1 n ++ [computeMessage G acc.1 frm b] else acc.1 n)
          frm b,
        (computeMaxMessage_src G _ frm b).1, (computeMaxMessage_src G _ frm b).2, ?_⟩
      simp [sendStep]
    · have hbt : b ≠ t := fun hc => hndt.1 (hc ▸ hbts)
      obtain ⟨msg, hsrc, hdst, heq⟩ := ih (sendStep G frm true acc t) b hndt.2 hbts
      refine ⟨msg, hsrc, hdst, ?_⟩
      rw [heq]
      simp [sendStep, hbt]

theorem sendStep_fold_maxMail_false (G : FGraph) (frm : NId) :
    ∀ (ts : List NId) (acc : (NId → List Msg) × (NId → List Msg) × List NId)
      (b : NId),
      (List.foldl (sendStep G frm false) acc ts).2.1 b = acc.2.1 b := by
  intro ts
  induction ts with
  | nil => intro acc b; rfl
  | cons t ts ih =>
    intro acc b
    rw [List.foldl_cons, ih]
    rfl

theorem sendStep_fold_queue_mem (G : FGraph) (frm : NId) (fwd : Bool) :
    ∀ (ts : List NId) (acc : (NId → List Msg) × (NId → List Msg) × List NId)
      (m : NId),
      (m ∈ (List.foldl (sendStep G frm fwd) acc ts).2.2 ↔ m ∈ acc.2.2 ∨ m ∈ ts) := by
  intro ts
  induction ts with
  | nil => intro acc m; simp
  | cons t ts ih =>
    intro acc m
    rw [List.foldl_cons, ih]
    have hstep : (sendStep G frm fwd acc t).2.2
        = if List.contains acc.2.2 t then acc.2.2 else acc.2.2 ++ [t] := rfl
    rw [hstep]
    by_cases hc : List.contains acc.2.2 t = true
    · rw [if_pos hc]
      have hmem : t ∈ acc.2.2 := by simpa using hc
      constructor
      · rintro (h | h)
        · exact Or.inl h
        · exact Or.inr (List.mem_cons_of_mem _ h)
      · rintro (h | h)
        · exact Or.inl h
        · rcases List.mem_cons.mp h with h | h
          · exact Or.inl (h ▸ hmem)
          · exact Or.inr h
    · rw [if_neg hc]
      constructor
      · rintro (h | h)
        · rcases List.mem_append.mp h with h | h
          · exact Or.inl h
          · rcases List.mem_singleton.mp h with rfl
            exact Or.inr (List.mem_cons_self _ _)
        · exact Or.inr (List.mem_cons_of_mem _ h)
      · rintro (h | h)
        · exact Or.inl (List.mem_append.mpr (Or.inl h))
        · rcases List.mem_cons.mp h with rfl | h
          · exact Or.inl (List.mem_append.mpr (Or.inr (List.mem_singleton.mpr rfl)))
          · exact Or.inr h

theorem sendStep_fold_queue_nodup (G : FGraph) (frm : NId) (fwd : Bool) :
    ∀ (ts : List NId) (acc : (NId → List Msg) × (NId → List Msg) × List NId),
      acc.2.2.Nodup → (List.foldl (sendStep G frm fwd) acc ts).2.2.Nodup := by
  intro ts
  induction ts with
  | nil => intro acc h; exact h
  | cons t ts ih =>
    intro acc h
    rw [List.foldl_cons]
    apply ih
    have hstep : (sendStep G frm fwd acc t).2.2
        = if List.contains acc.2.2 t then acc.2.2 else acc.2.2 ++ [t] := rfl
    rw [hstep]
    by_cases hc : List.contains acc.2.2 t = true
    · rw [if_pos hc]; exact h
    · rw [if_neg hc]
      refine List.Nodup.append h (List.nodup_singleton t) ?_
      intro a ha hb
      rcases List.mem_singleton.mp hb with rfl
      have hc2 : a ∉ acc.2.2 := by simpa using hc
      exact hc2 ha

theorem stepP_fwd_eq (G : FGraph) (gv : Expr → ℤ) (q0 : NId) (qrest visited : List NId)
    (mail maxMail : NId → List Msg) (ms : MaxStates) :
    stepP G gv ⟨q0 :: qrest, visited, true, mail, maxMail, ms⟩ =
      (if (List.foldl (sendStep G q0 true) (mail, maxMail, qrest)
          ((G.nbrs q0).filter (fun nbr => !(List.contains visited nbr)))).2.2.isEmpty then
        ⟨visited ++ [q0], [], false,
          (List.foldl (sendStep G q0 true) (mail, maxMail, qrest)
            ((G.nbrs q0).filter (fun nbr => !(List.contains visited nbr)))).1,
          (List.foldl (sendStep G q0 true) (mail, maxMail, qrest)
            ((G.nbrs q0).filter (fun nbr => !(List.contains visited nbr)))).2.1, ms⟩
      else
        ⟨(List.foldl (sendStep G q0 true) (mail, maxMail, qrest)
            ((G.nbrs q0).filter (fun nbr => !(List.contains visited nbr)))).2.2,
          visited ++ [q0], true,
          (List.foldl (sendStep G q0 true) (mail, maxMail, qrest)
            ((G.nbrs q0).filter (fun nbr => !(List.contains visited nbr)))).1,
          (List.foldl (sendStep G q0 true) (mail, maxMail, qrest)
            ((G.nbrs q0).filter (fun nbr => !(List.contains visited nbr)))).2.1, ms⟩) := by
  rfl

theorem stepP_bwd_eq (G : FGraph) (gv : Expr → ℤ) (q0 : NId) (qrest visited : List NId)
    (mail maxMail : NId → List Msg) (ms : MaxStates) :
    stepP G gv ⟨q0 :: qrest, visited, false, mail, maxMail, ms⟩ =
      ⟨(List.foldl (sendStep G ((q0 :: qrest).getLast?.getD q0) false)
          (mail, maxMail, (q0 :: qrest).dropLast)
          ((G.nbrs ((q0 :: qrest).getLast?.getD q0)).filter
            (fun nbr => !(List.contains visited nbr)))).2.2,
        visited ++ [(q0 :: qrest).getLast?.getD q0], false,
        (List.foldl (sendStep G ((q0 :: qrest).getLast?.getD q0) false)
          (mail, maxMail, (q0 :: qrest).dropLast)
          ((G.nbrs ((q0 :: qrest).getLast?.getD q0)).filter
            (fun nbr => !(List.contains visited nbr)))).1,
        (List.foldl (sendStep G ((q0 :: qrest).getLast?.getD q0) false)
          (mail, maxMail, (q0 :: qrest).dropLast)
          ((G.nbrs ((q0 :: qrest).getLast?.getD q0)).filter
            (fun nbr => !(List.contains visited nbr)))).2.1,
        if (NId.isVar ((q0 :: qrest).getLast?.getD q0))
            && !(List.isEmpty (maxMail ((q0 :: qrest).getLast?.getD q0))) then
          backTrack G gv maxMail ms ((q0 :: qrest).getLast?.getD q0)
        else ms⟩ := by
  rfl

theorem countSrc_append_single (a : NId) (l : List Msg) (m : Msg) :
    countSrc a (l ++ [m]) = countSrc a l + if m.src = a then 1 else 0 := by
  rw [countSrc, countSrc, List.filter_append]
  by_cases h : m.src = a
  · rw [if_pos h]
    simp [List.filter, h]
  · rw [if_neg h]
    simp [List.filter, beq_eq_false_iff_ne.mpr h]

theorem sendStep_fold_count (G : FGraph) (frm : NId) (fwd : Bool) (ts : List NId)
    (hnd : ts.Nodup) (acc : (NId → List Msg) × (NId → List Msg) × List NId)
    (a b : NId) :
    countSrc a ((List.foldl (sendStep G frm fwd) acc ts).1 b)
      = countSrc a (acc.1 b) + (if a = frm ∧ b ∈ ts then 1 else 0) := by
  by_cases hb : b ∈ ts
  · obtain ⟨msg, hsrc, hdst, heq⟩ := sendStep_fold_mail_in G frm fwd ts acc b hnd hb
    rw [heq, countSrc_append_single, hsrc]
    by_cases ha : a = frm
    · rw [if_pos ha.symm, if_pos ⟨ha, hb⟩]
    · rw [if_neg (fun hc => ha hc.symm), if_neg (fun hc => ha hc.1)]
  · rw [sendStep_fold_mail_nin G frm fwd ts acc b hb]
    rw [if_neg (fun hc => hb hc.2)]
    rfl

theorem sendStep_fold_maxCount_true (G : FGraph) (frm : NId) (ts : List NId)
    (hnd : ts.Nodup) (acc : (NId → List Msg) × (NId → List Msg) × List NId)
    (a b : NId) :
    countSrc a ((List.foldl (sendStep G frm true) acc ts).2.1 b)
      = countSrc a (acc.2.1 b) + (if a = frm ∧ b ∈ ts then 1 else 0) := by
  by_cases hb : b ∈ ts
  · obtain ⟨msg, hsrc, hdst, heq⟩ := sendStep_fold_maxMail_in_true G frm ts acc b hnd hb
    rw [heq, countSrc_append_single, hsrc]
    by_cases ha : a = frm
    · rw [if_pos ha.symm, if_pos ⟨ha, hb⟩]
    · rw [if_neg (fun hc => ha hc.symm), if_neg (fun hc => ha hc.1)]
  · rw [sendStep_fold_maxMail_nin G frm true ts acc b hb]
    rw [if_neg (fun hc => hb hc.2)]
    rfl

theorem fwd_step (G : FGraph) (gv : Expr → ℤ) (H : GraphH G) (q0 : NId)
    (qrest visited : List NId) (mail maxMail : NId → List Msg) (ms : MaxStates)
    (I : FwdInv G ⟨q0 :: qrest, visited, true, mail, maxMail, ms⟩) :
    (FwdInv G (stepP G gv ⟨q0 :: qrest, visited, true, mail, maxMail, ms⟩)
      ∧ (stepP G gv ⟨q0 :: qrest, visited, true, mail, maxMail, ms⟩).forward = true
      ∧ (stepP G gv ⟨q0 :: qrest, visited, true, mail, maxMail, ms⟩).visited
          = visited ++ [q0]
      ∧ (stepP G gv ⟨q0 :: qrest, visited, true, mail, maxMail, ms⟩).queue ≠ [])
    ∨ (FlipInv G (stepP G gv ⟨q0 :: qrest, visited, true, mail, maxMail, ms⟩)
      ∧ (stepP G gv ⟨q0 :: qrest, visited, true, mail, maxMail, ms⟩).queue
          = visited ++ [q0]) := by
  have hq0node : q0 ∈ G.nodes := I.qsub q0 (List.mem_cons_self _ _)
  have hq0nv : q0 ∉ visited := I.disj q0 (List.mem_cons_self _ _)
  set ts := (G.nbrs q0).filter (fun nbr => !(List.contains visited nbr)) with hts
  have hts_nbr : ∀ m ∈ ts, m ∈ G.nbrs q0 := fun m hm => (List.mem_filter.mp hm).1
  have hts_nv : ∀ m ∈ ts, m ∉ visited := by
    intro m hm
    have := (List.mem_filter.mp hm).2
    simpa using this
  have hts_iff : ∀ m, m ∈ ts ↔ m ∈ G.nbrs q0 ∧ m ∉ visited := by
    intro m
    constructor
    · exact fun hm => ⟨hts_nbr m hm, hts_nv m hm⟩
    · intro ⟨h1, h2⟩
      exact List.mem_filter.mpr ⟨h1, by simpa using h2⟩
  have hts_nd : ts.Nodup := List.Nodup.filter _ (H.nbrnd q0 hq0node)
  have hq0ts : q0 ∉ ts := fun hc => H.irr q0 hq0node (hts_nbr q0 hc)
  set acc := List.foldl (sendStep G q0 true) (mail, maxMail, qrest) ts with hacc
  have hcnt : ∀ a b, countSrc a (acc.1 b)
      = countSrc a (mail b) + (if a = q0 ∧ b ∈ ts then 1 else 0) :=
    fun a b => sendStep_fold_count G q0 true ts hts_nd (mail, maxMail, qrest) a b
  have hmaxc : ∀ a b, countSrc a (acc.2.1 b)
      = countSrc a (maxMail b) + (if a = q0 ∧ b ∈ ts then 1 else 0) :=
    fun a b => sendStep_fold_maxCount_true G q0 ts hts_nd (mail, maxMail, qrest) a b
  have hqmem : ∀ m, m ∈ acc.2.2 ↔ m ∈ qrest ∨ m ∈ ts :=
    fun m => sendStep_fold_queue_mem G q0 true ts (mail, maxMail, qrest) m
  have hqnd : acc.2.2.Nodup :=
    sendStep_fold_queue_nodup G q0 true ts (mail, maxMail, qrest)
      (List.Nodup.of_cons I.qnd)
  -- position bookkeeping for the extended visited sequence
  have hidx_q0 : (visited ++ [q0]).indexOf q0 = visited.length := by
    rw [List.indexOf_append_of_not_mem hq0nv]
    simp
  have htake_q0 : (visited ++ [q0]).take ((visited ++ [q0]).indexOf q0) = visited := by
    rw [hidx_q0, List.take_append_of_le_length (le_refl _), List.take_length]
  have hidx_mem : ∀ a, a ∈ visited →
      (visited ++ [q0]).indexOf a = visited.indexOf a :=
    fun a ha => List.indexOf_append_of_mem ha
  have htake_mem : ∀ a, a ∈ visited →
      (visited ++ [q0]).take ((visited ++ [q0]).indexOf a)
        = visited.take (visited.indexOf a) := by
    intro a ha
    rw [hidx_mem a ha,
      List.take_append_of_le_length (le_of_lt (List.indexOf_lt_length.mpr ha))]
  -- the mailbox-count invariant against the extended sequence
  have hmail' : ∀ a b, b ∈ G.nbrs a → countSrc a (acc.1 b)
      = if a ∈ visited ++ [q0]
          ∧ b ∉ (visited ++ [q0]).take ((visited ++ [q0]).indexOf a) then 1 else 0 := by
    intro a b hab
    rw [hcnt a b]
    by_cases ha : a = q0
    · subst ha
      rw [I.mailcnt a b hab, if_neg (fun hc => hq0nv hc.1), htake_q0]
      by_cases hbv : b ∈ visited
      · rw [if_neg (fun hc => (hts_iff b).mp hc.2 |>.2 hbv), if_neg (fun hc => hc.2 hbv)]
      · rw [if_pos ⟨rfl, (hts_iff b).mpr ⟨hab, hbv⟩⟩,
          if_pos ⟨List.mem_append.mpr (Or.inr (List.mem_singleton.mpr rfl)), hbv⟩]
    · rw [if_neg (fun hc => ha hc.1), I.mailcnt a b hab]
      by_cases hav : a ∈ visited
      · rw [htake_mem a hav]
        by_cases hbt : b ∈ visited.take (visited.indexOf a)
        · rw [if_neg (fun hc => hc.2 hbt), if_neg (fun hc => hc.2 hbt)]
        · rw [if_pos ⟨hav, hbt⟩, if_pos ⟨List.mem_append.mpr (Or.inl hav), hbt⟩]
      · have hav' : a ∉ visited ++ [q0] := by
          intro hc
          rcases List.mem_append.mp hc with hc | hc
          · exact hav hc
          · exact ha (List.mem_singleton.mp hc)
        rw [if_neg (fun hc => hav hc.1), if_neg (fun hc => hav' hc.1)]
  have hmax' : ∀ a b, b ∈ G.nbrs a → countSrc a (acc.2.1 b)
      = if a ∈ visited ++ [q0]
          ∧ b ∉ (visited ++ [q0]).take ((visited ++ [q0]).indexOf a) then 1 else 0 := by
    intro a b hab
    rw [hmaxc a b]
    by_cases ha : a = q0
    · subst ha
      rw [I.maxcnt a b hab, if_neg (fun hc => hq0nv hc.1), htake_q0]
      by_cases hbv : b ∈ visited
      · rw [if_neg (fun hc => (hts_iff b).mp hc.2 |>.2 hbv), if_neg (fun hc => hc.2 hbv)]
      · rw [if_pos ⟨rfl, (hts_iff b).mpr ⟨hab, hbv⟩⟩,
          if_pos ⟨List.mem_append.mpr (Or.inr (List.mem_singleton.mpr rfl)), hbv⟩]
    · rw [if_neg (fun hc => ha hc.1), I.maxcnt a b hab]
      by_cases hav : a ∈ visited
      · rw [htake_mem a hav]
        by_cases hbt : b ∈ visited.take (visited.indexOf a)
        · rw [if_neg (fun hc => hc.2 hbt), if_neg (fun hc => hc.2 hbt)]
        · rw [if_pos ⟨hav, hbt⟩, if_pos ⟨List.mem_append.mpr (Or.inl hav), hbt⟩]
      · have hav' : a ∉ visited ++ [q0] := by
          intro hc
          rcases List.mem_append.mp hc with hc | hc
          · exact hav hc
          · exact ha (List.mem_singleton.mp hc)
        rw [if_neg (fun hc => hav hc.1), if_neg (fun hc => hav' hc.1)]
  have hnon' : ∀ a b, b ∉ G.nbrs a → countSrc a (acc.1 b) = 0 := by
    intro a b hab
    have hni : ¬(a = q0 ∧ b ∈ ts) := by
      rintro ⟨rfl, hmem⟩
      exact hab (hts_nbr b hmem)
    rw [hcnt a b, I.mailnon a b hab, if_neg hni]
  have hmaxnon' : ∀ a b, b ∉ G.nbrs a → countSrc a (acc.2.1 b) = 0 := by
    intro a b hab
    have hni : ¬(a = q0 ∧ b ∈ ts) := by
      rintro ⟨rfl, hmem⟩
      exact hab (hts_nbr b hmem)
    rw [hmaxc a b, I.maxnon a b hab, if_neg hni]
  -- disjointness and closure facts shared by both outcomes
  have hq'_disj : ∀ m ∈ acc.2.2, m ∉ visited ++ [q0] := by
    intro m hm hc
    rcases (hqmem m).mp hm with hm' | hm'
    · rcases List.mem_append.mp hc with hc | hc
      · exact I.disj m (List.mem_cons_of_mem _ hm') hc
      · rcases List.mem_singleton.mp hc with rfl
        exact (List.nodup_cons.mp I.qnd).1 hm'
    · rcases List.mem_append.mp hc with hc | hc
      · exact hts_nv m hm' hc
      · rcases List.mem_singleton.mp hc with rfl
        exact hq0ts hm'
  have hq'_sub : ∀ m ∈ acc.2.2, m ∈ G.nodes := by
    intro m hm
    rcases (hqmem m).mp hm with hm' | hm'
    · exact I.qsub m (List.mem_cons_of_mem _ hm')
    · exact H.closed q0 hq0node m (hts_nbr m hm')
  have hv'_sub : ∀ m ∈ visited ++ [q0], m ∈ G.nodes := by
    intro m hm
    rcases List.mem_append.mp hm with hm | hm
    · exact I.vsub m hm
    · rcases List.mem_singleton.mp hm with rfl
      exact hq0node
  have hv'_nd : (visited ++ [q0]).Nodup := by
    refine List.Nodup.append I.vnd (List.nodup_singleton q0) ?_
    intro x hx hy
    rcases List.mem_singleton.mp hy with rfl
    exact hq0nv hx
  have hclosed' : ∀ n ∈ visited ++ [q0], ∀ m ∈ G.nbrs n,
      m ∈ visited ++ [q0] ∨ m ∈ acc.2.2 := by
    intro n hn m hm
    rcases List.mem_append.mp hn with hn | hn
    · rcases I.closed n hn m hm with hmv | hmq
      · exact Or.inl (List.mem_append.mpr (Or.inl hmv))
      · rcases List.mem_cons.mp hmq with rfl | hmq
        · exact Or.inl (List.mem_append.mpr (Or.inr (List.mem_singleton.mpr rfl)))
        · exact Or.inr ((hqmem m).mpr (Or.inl hmq))
    · rcases List.mem_singleton.mp hn with rfl
      by_cases hmv : m ∈ visited
      · exact Or.inl (List.mem_append.mpr (Or.inl hmv))
      · exact Or.inr ((hqmem m).mpr (Or.inr ((hts_iff m).mpr ⟨hm, hmv⟩)))
  have hinit' : ∀ n ∈ initQ G, n ∈ visited ++ [q0] ∨ n ∈ acc.2.2 := by
    intro n hn
    rcases I.initin n hn with hnv | hnq
    · exact Or.inl (List.mem_append.mpr (Or.inl hnv))
    · rcases List.mem_cons.mp hnq with rfl | hnq
      · exact Or.inl (List.mem_append.mpr (Or.inr (List.mem_singleton.mpr rfl)))
      · exact Or.inr ((hqmem n).mpr (Or.inl hnq))
  rw [stepP_fwd_eq]
  by_cases hemp : acc.2.2.isEmpty = true
  · rw [← hts, ← hacc, if_pos hemp]
    have hempty : acc.2.2 = [] := List.isEmpty_iff.mp hemp
    right
    refine ⟨⟨rfl, rfl, hv'_sub, hv'_nd, ?_, ?_, hmail', hnon', hmax', hmaxnon'⟩, rfl⟩
    · intro n hn m hm
      rcases hclosed' n hn m hm with h | h
      · exact h
      · rw [hempty] at h
        cases h
    · intro n hn
      rcases hinit' n hn with h | h
      · exact h
      · rw [hempty] at h
        cases h
  · rw [← hts, ← hacc, if_neg hemp]
    left
    refine ⟨⟨rfl, hq'_sub, hv'_sub, hqnd, hv'_nd, hq'_disj, hclosed', hinit',
      hmail', hnon', hmax', hmaxnon'⟩, rfl, rfl, ?_⟩
    intro hc
    rw [show acc.2.2 = (⟨acc.2.2, visited ++ [q0], true, acc.1, acc.2.1, ms⟩ : PState).queue
      from rfl] at hemp
    rw [hc] at hemp
    exact hemp rfl

theorem nodup_subset_full (l1 l2 : List NId) (h1 : l1.Nodup) (h2 : l2.Nodup)
    (hsub : ∀ x ∈ l1, x ∈ l2) (hlen : l2.length ≤ l1.length) : ∀ x ∈ l2, x ∈ l1 := by
  intro x hx
  have hcard1 : l1.toFinset.card = l1.length := List.toFinset_card_of_nodup h1
  have hcard2 : l2.toFinset.card = l2.length := List.toFinset_card_of_nodup h2
  have hsubF : l1.toFinset ⊆ l2.toFinset := by
    intro y hy
    rw [List.mem_toFinset] at hy ⊢
    exact hsub y hy
  have heqF : l2.toFinset ⊆ l1.toFinset := by
    apply Finset.subset_of_eq
    symm
    apply Finset.eq_of_subset_of_card_le hsubF
    omega
  rw [← List.mem_toFinset]
  exact heqF (List.mem_toFinset.mpr hx)

theorem nodup_same_mem_length (l1 l2 : List NId) (h1 : l1.Nodup) (h2 : l2.Nodup)
    (hiff : ∀ x, x ∈ l1 ↔ x ∈ l2) : l1.length = l2.length := by
  have hcard1 : l1.toFinset.card = l1.length := List.toFinset_card_of_nodup h1
  have hcard2 : l2.toFinset.card = l2.length := List.toFinset_card_of_nodup h2
  have : l1.toFinset = l2.toFinset := by
    ext x
    rw [List.mem_toFinset, List.mem_toFinset]
    exact hiff x
  rw [← hcard1, ← hcard2, this]

theorem FwdInv_init (G : FGraph) (H : GraphH G) : FwdInv G (initP G) := by
  refine ⟨rfl, ?_, ?_, ?_, ?_, ?_, ?_, ?_, ?_, ?_, ?_, ?_⟩
  · intro n hn
    exact (List.mem_filter.mp hn).1
  · intro n hn
    cases hn
  · exact List.Nodup.filter _ H.nd
  · exact List.nodup_nil
  · intro n _ hc
    cases hc
  · intro n hn
    cases hn
  · intro n hn
    exact Or.inr hn
  · intro a b _
    rw [if_neg (fun hc => by cases hc.1)]
    rfl
  · intro a b _
    rfl
  · intro a b _
    rw [if_neg (fun hc => by cases hc.1)]
    rfl
  · intro a b _
    rfl

theorem fwd_phase (G : FGraph) (gv : Expr → ℤ) (H : GraphH G) :
    ∀ k, k ≤ G.nodes.length →
      ((FwdInv G (runP G gv k) ∧ (runP G gv k).queue ≠ []
          ∧ (runP G gv k).visited.length = k ∧ k < G.nodes.length)
        ∨ (FlipInv G (runP G gv k) ∧ (runP G gv k).queue.length = k
          ∧ (∀ n, n ∈ (runP G gv k).queue ↔ n ∈ G.nodes)
          ∧ k = G.nodes.length)) := by
  have hnv_pos : 0 < G.nodes.length := by
    cases hn : G.nodes with
    | nil =>
      exfalso
      apply H.init_ne
      rw [initQ, hn]
      rfl
    | cons a l => simp [hn]
  intro k
  induction k with
  | zero =>
    intro _
    left
    refine ⟨FwdInv_init G H, H.init_ne, rfl, hnv_pos⟩
  | succ k ih =>
    intro hk1
    have hk : k ≤ G.nodes.length := Nat.le_of_succ_le hk1
    rcases ih hk with ⟨I, hne, hlen, hlt⟩ | ⟨F, _, _, hkeq⟩
    · -- one more collect step
      obtain ⟨q0, qrest, hq⟩ := List.exists_cons_of_ne_nil hne
      have hstate : runP G gv k
          = ⟨q0 :: qrest, (runP G gv k).visited, true, (runP G gv k).mail,
              (runP G gv k).maxMail, (runP G gv k).maxStates⟩ := by
        rw [← hq, ← I.fq]
      have hrun1 : runP G gv (k + 1)
          = stepP G gv ⟨q0 :: qrest, (runP G gv k).visited, true, (runP G gv k).mail,
              (runP G gv k).maxMail, (runP G gv k).maxStates⟩ := by
        rw [← hstate]
        rfl
      have I' : FwdInv G ⟨q0 :: qrest, (runP G gv k).visited, true,
          (runP G gv k).mail, (runP G gv k).maxMail, (runP G gv k).maxStates⟩ := by
        rw [← hstate]
        exact I
      rcases fwd_step G gv H q0 qrest (runP G gv k).visited (runP G gv k).mail
          (runP G gv k).maxMail (runP G gv k).maxStates I' with
        ⟨J, hfwd', hvis', hne'⟩ | ⟨F', hqeq'⟩
      · left
        rw [← hrun1] at J hfwd' hvis' hne'
        have hlen' : (runP G gv (k + 1)).visited.length = k + 1 := by
          rw [hvis', List.length_append, List.length_singleton, hlen]
        -- if k + 1 were the full count the queue could not be nonempty
        refine ⟨J, hne', hlen', ?_⟩
        by_contra hc
        have hall : ∀ x ∈ G.nodes, x ∈ (runP G gv (k + 1)).visited := by
          apply nodup_subset_full _ _ J.vnd H.nd J.vsub
          omega
        obtain ⟨m, hm⟩ := List.exists_mem_of_ne_nil _ hne'
        exact J.disj m hm (hall m (J.qsub m hm))
      · right
        rw [← hrun1] at F' hqeq'
        have hqlen : (runP G gv (k + 1)).queue.length = k + 1 := by
          rw [hqeq', List.length_append, List.length_singleton, hlen]
        have hmem : ∀ n, n ∈ (runP G gv (k + 1)).queue ↔ n ∈ G.nodes := by
          intro n
          constructor
          · exact F'.qsub n
          · intro hn
            have hreach := H.conn n hn
            refine reachSet_subset_closed G ((runP G gv (k + 1)).queue)
              ?_ G.nodes.length (initQ G) F'.initin n hreach
            intro x hx m hm _
            exact F'.qclosed x hx m hm
        have hkeq : k + 1 = G.nodes.length := by
          rw [← hqlen]
          exact nodup_same_mem_length _ _ F'.qnd H.nd hmem
        exact ⟨F', hqlen, hmem, hkeq⟩
    · omega

theorem sendStep_fold_queue_id (G : FGraph) (frm : NId) (fwd : Bool) :
    ∀ (ts : List NId) (acc : (NId → List Msg) × (NId → List Msg) × List NId),
      (∀ m ∈ ts, m ∈ acc.2.2) →
      (List.foldl (sendStep G frm fwd) acc ts).2.2 = acc.2.2 := by
  intro ts
  induction ts with
  | nil => intro acc _; rfl
  | cons t ts ih =>
    intro acc h
    rw [List.foldl_cons]
    have hc : List.contains acc.2.2 t = true := by
      simpa using h t (List.mem_cons_self _ _)
    have hstep : (sendStep G frm fwd acc t).2.2
        = if List.contains acc.2.2 t then acc.2.2 else acc.2.2 ++ [t] := rfl
    have hstep2 : (sendStep G frm fwd acc t).2.2 = acc.2.2 := by
      rw [hstep, if_pos hc]
    rw [ih (sendStep G frm fwd acc t)
      (by rw [hstep2]; exact fun m hm => h m (List.mem_cons_of_mem _ hm)), hstep2]

theorem stepP_bwd_concat (G : FGraph) (gv : Expr → ℤ) (qinit : List NId) (qlast : NId)
    (visited : List NId) (mail maxMail : NId → List Msg) (ms : MaxStates) :
    stepP G gv ⟨qinit ++ [qlast], visited, false, mail, maxMail, ms⟩ =
      ⟨(List.foldl (sendStep G qlast false) (mail, maxMail, qinit)
          ((G.nbrs qlast).filter (fun nbr => !(List.contains visited nbr)))).2.2,
        visited ++ [qlast], false,
        (List.foldl (sendStep G qlast false) (mail, maxMail, qinit)
          ((G.nbrs qlast).filter (fun nbr => !(List.contains visited nbr)))).1,
        (List.foldl (sendStep G qlast false) (mail, maxMail, qinit)
          ((G.nbrs qlast).filter (fun nbr => !(List.contains visited nbr)))).2.1,
        if NId.isVar qlast && !(List.isEmpty (maxMail qlast)) then
          backTrack G gv maxMail ms qlast
        else ms⟩ := by
  cases hq : qinit ++ [qlast] with
  | nil => exact absurd hq (by simp)
  | cons q0 qrest =>
    rw [stepP_bwd_eq, ← hq, List.getLast?_concat, List.dropLast_concat]
    rfl

theorem bwd_step (G : FGraph) (gv : Expr → ℤ) (H : GraphH G) (V0 : List NId)
    (hndV : V0.Nodup) (hmemV : ∀ x, x ∈ V0 ↔ x ∈ G.nodes) (j : ℕ)
    (hj : j < V0.length) (st : PState) (I : BwdInv G V0 j st) :
    BwdInv G V0 (j + 1) (stepP G gv st) := by
  have hi : V0.length - j - 1 < V0.length := by omega
  set i := V0.length - j - 1 with hidef
  have hnj : V0.length - j = i + 1 := by omega
  have hnj1 : V0.length - (j + 1) = i := by omega
  set node := V0.get ⟨i, hi⟩ with hnode
  have htake1 : V0.take (i + 1) = V0.take i ++ [node] := by
    rw [List.take_succ]
    have hgl : V0[i]? = some node := by
      rw [List.getElem?_eq_getElem hi]
      rfl
    rw [hgl]
    rfl
  have hdropc : V0.drop i = node :: V0.drop (i + 1) := List.drop_eq_getElem_cons hi
  have hsplit : V0 = V0.take i ++ node :: V0.drop (i + 1) := by
    conv_lhs => rw [← List.take_append_drop i V0]
    rw [hdropc]
  have hnd2 : (V0.take i ++ node :: V0.drop (i + 1)).Nodup := hsplit ▸ hndV
  rw [List.nodup_append] at hnd2
  have hnode_nt : node ∉ V0.take i := fun hc => hnd2.2.2 hc (List.mem_cons_self _ _)
  have hnode_nd : node ∉ V0.drop (i + 1) := (List.nodup_cons.mp hnd2.2.1).1
  have hdisj : ∀ x ∈ V0.take i, x ∉ V0.drop (i + 1) := fun x hx hc =>
    hnd2.2.2 hx (List.mem_cons_of_mem _ hc)
  have hnodeV : node ∈ V0 := List.get_mem V0 i hi
  have hnode_di : node ∈ V0.drop i := by
    rw [hdropc]
    exact List.mem_cons_self _ _
  have hnodeG : node ∈ G.nodes := (hmemV node).mp hnodeV
  have hlen_take : (V0.take i).length = i := by
    rw [List.length_take]
    omega
  have hidx_node : V0.indexOf node = i := by
    conv_lhs => rw [hsplit]
    rw [List.indexOf_append_of_not_mem hnode_nt, List.indexOf_cons_self, hlen_take]
    omega
  have htake_idx : V0.take (V0.indexOf node) = V0.take i := by rw [hidx_node]
  obtain ⟨qu, vis, fw, mail, maxMail, ms⟩ := st
  have hfw : fw = false := I.fq
  have hq0 : qu = V0.take (V0.length - j) := I.qeq
  have hqu : qu = V0.take i ++ [node] := by rw [hq0, hnj, htake1]
  have hv0 : vis = (V0.drop (V0.length - j)).reverse := I.veq
  have hvis : vis = (V0.drop (i + 1)).reverse := by rw [hv0, hnj]
  have Imail : ∀ a b, b ∈ G.nbrs a → countSrc a (mail b)
      = (if a ∈ V0 ∧ b ∉ V0.take (V0.indexOf a) then 1 else 0)
      + (if a ∈ V0.drop (i + 1) ∧ b ∈ V0.take (V0.indexOf a) then 1 else 0) := by
    intro a b hab
    have h := I.mailcnt a b hab
    rw [hnj] at h
    exact h
  have Imailnon : ∀ a b, b ∉ G.nbrs a → countSrc a (mail b) = 0 := I.mailnon
  have Imaxcnt : ∀ a b, b ∈ G.nbrs a → countSrc a (maxMail b)
      = if a ∈ V0 ∧ b ∉ V0.take (V0.indexOf a) then 1 else 0 := I.maxcnt
  have Imaxnon : ∀ a b, b ∉ G.nbrs a → countSrc a (maxMail b) = 0 := I.maxnon
  subst hfw hqu hvis
  rw [stepP_bwd_concat]
  set ts := (G.nbrs node).filter
      (fun nbr => !(List.contains ((V0.drop (i + 1)).reverse) nbr)) with hts
  set acc := List.foldl (sendStep G node false) (mail, maxMail, V0.take i) ts with hacc
  have hts_nbr : ∀ m ∈ ts, m ∈ G.nbrs node := fun m hm => (List.mem_filter.mp hm).1
  have hts_nv : ∀ m ∈ ts, m ∉ V0.drop (i + 1) := by
    intro m hm hc
    have h2 := (List.mem_filter.mp hm).2
    have hmr : m ∈ (V0.drop (i + 1)).reverse := List.mem_reverse.mpr hc
    simp [hmr] at h2
  have hts_iff : ∀ m, m ∈ ts ↔ m ∈ G.nbrs node ∧ m ∉ V0.drop (i + 1) := by
    intro m
    constructor
    · exact fun hm => ⟨hts_nbr m hm, hts_nv m hm⟩
    · intro ⟨h1, h2⟩
      refine List.mem_filter.mpr ⟨h1, ?_⟩
      have hmr : m ∉ (V0.drop (i + 1)).reverse := fun hc => h2 (List.mem_reverse.mp hc)
      simpa using hmr
  have hts_nd : ts.Nodup := List.Nodup.filter _ (H.nbrnd node hnodeG)
  have hts_sub_q : ∀ m ∈ ts, m ∈ V0.take i := by
    intro m hm
    have hmn : m ∈ G.nbrs node := hts_nbr m hm
    have hmV : m ∈ V0 := (hmemV m).mpr (H.closed node hnodeG m hmn)
    have hmne : m ≠ node := fun hc => H.irr node hnodeG (hc ▸ hmn)
    have hmnd : m ∉ V0.drop (i + 1) := hts_nv m hm
    rw [hsplit] at hmV
    rcases List.mem_append.mp hmV with h | h
    · exact h
    · rcases List.mem_cons.mp h with h | h
      · exact absurd h hmne
      · exact absurd h hmnd
  have hqid : acc.2.2 = V0.take i :=
    sendStep_fold_queue_id G node false ts (mail, maxMail, V0.take i) hts_sub_q
  have hcnt : ∀ a b, countSrc a (acc.1 b)
      = countSrc a (mail b) + (if a = node ∧ b ∈ ts then 1 else 0) :=
    fun a b => sendStep_fold_count G node false ts hts_nd (mail, maxMail, V0.take i) a b
  have hmaxeq : ∀ b, acc.2.1 b = maxMail b :=
    fun b => sendStep_fold_maxMail_false G node ts (mail, maxMail, V0.take i) b
  refine ⟨rfl, ?_, ?_, ?_, ?_, ?_, ?_⟩
  · show acc.2.2 = V0.take (V0.length - (j + 1))
    rw [hnj1, hqid]
  · show (V0.drop (i + 1)).reverse ++ [node] = (V0.drop (V0.length - (j + 1))).reverse
    rw [hnj1, hdropc, List.reverse_cons]
  · show ∀ a b, b ∈ G.nbrs a → countSrc a (acc.1 b)
        = (if a ∈ V0 ∧ b ∉ V0.take (V0.indexOf a) then 1 else 0)
        + (if a ∈ V0.drop (V0.length - (j + 1)) ∧ b ∈ V0.take (V0.indexOf a)
            then 1 else 0)
    intro a b hab
    rw [hnj1, hcnt a b, Imail a b hab]
    by_cases ha : a = node
    · subst ha
      rw [htake_idx]
      have eold : (if node ∈ V0.drop (i + 1) ∧ b ∈ V0.take i then 1 else 0) = 0 :=
        if_neg (fun hc => hnode_nd hc.1)
      rw [eold]
      by_cases hbt : b ∈ V0.take i
      · have estep : (if node = node ∧ b ∈ ts then 1 else 0) = 1 :=
          if_pos ⟨rfl, (hts_iff b).mpr ⟨hab, hdisj b hbt⟩⟩
        have enew : (if node ∈ V0.drop i ∧ b ∈ V0.take i then 1 else 0) = 1 :=
          if_pos ⟨hnode_di, hbt⟩
        rw [estep, enew]
      · have estep : (if node = node ∧ b ∈ ts then 1 else 0) = 0 :=
          if_neg (fun hc => hbt (hts_sub_q b hc.2))
        have enew : (if node ∈ V0.drop i ∧ b ∈ V0.take i then 1 else 0) = 0 :=
          if_neg (fun hc => hbt hc.2)
        rw [estep, enew]
    · have estep : (if a = node ∧ b ∈ ts then 1 else 0) = 0 :=
        if_neg (fun hc => ha hc.1)
      rw [estep]
      have hiff : a ∈ V0.drop (i + 1) ↔ a ∈ V0.drop i := by
        rw [hdropc]
        constructor
        · exact fun h => List.mem_cons_of_mem _ h
        · intro h
          rcases List.mem_cons.mp h with h | h
          · exact absurd h ha
          · exact h
      by_cases hadp : a ∈ V0.drop (i + 1) ∧ b ∈ V0.take (V0.indexOf a)
      · have eold : (if a ∈ V0.drop (i + 1) ∧ b ∈ V0.take (V0.indexOf a)
            then 1 else 0) = 1 := if_pos hadp
        have enew : (if a ∈ V0.drop i ∧ b ∈ V0.take (V0.indexOf a)
            then 1 else 0) = 1 := if_pos ⟨hiff.mp hadp.1, hadp.2⟩
        rw [eold, enew]
      · have eold : (if a ∈ V0.drop (i + 1) ∧ b ∈ V0.take (V0.indexOf a)
            then 1 else 0) = 0 := if_neg hadp
        have enew : (if a ∈ V0.drop i ∧ b ∈ V0.take (V0.indexOf a)
            then 1 else 0) = 0 := if_neg (fun hc => hadp ⟨hiff.mpr hc.1, hc.2⟩)
        rw [eold, enew]
  · show ∀ a b, b ∉ G.nbrs a → countSrc a (acc.1 b) = 0
    intro a b hab
    rw [hcnt a b, Imailnon a b hab,
      if_neg (fun hc => hab (show b ∈ G.nbrs a by rw [hc.1]; exact hts_nbr b hc.2))]
  · show ∀ a b, b ∈ G.nbrs a → countSrc a (acc.2.1 b)
        = if a ∈ V0 ∧ b ∉ V0.take (V0.indexOf a) then 1 else 0
    intro a b hab
    rw [hmaxeq b]
    exact Imaxcnt a b hab
  · show ∀ a b, b ∉ G.nbrs a → countSrc a (acc.2.1 b) = 0
    intro a b hab
    rw [hmaxeq b]
    exact Imaxnon a b hab

theorem bwd_phase (G : FGraph) (gv : Expr → ℤ) (H : GraphH G) :
    ∀ j, j ≤ G.nodes.length →
      BwdInv G ((runP G gv G.nodes.length).queue) j
        (runP G gv (G.nodes.length + j)) := by
  rcases fwd_phase G gv H G.nodes.length (le_refl _) with
    ⟨_, _, _, hlt⟩ | ⟨F, hqlen, hmem, _⟩
  · omega
  intro j
  induction j with
  | zero =>
    intro _
    refine ⟨F.fq, ?_, ?_, ?_, F.mailnon, F.maxcnt, F.maxnon⟩
    · rw [Nat.add_zero, Nat.sub_zero, List.take_length]
    · rw [Nat.add_zero, Nat.sub_zero, List.drop_length, List.reverse_nil]
      exact F.vempty
    · intro a b hab
      rw [Nat.add_zero, Nat.sub_zero, List.drop_length]
      rw [F.mailcnt a b hab]
      simp
  | succ j ih =>
    intro hj1
    have hj : j < G.nodes.length := hj1
    have hI := ih (le_of_lt hj)
    have hrun : runP G gv (G.nodes.length + (j + 1))
        = stepP G gv (runP G gv (G.nodes.length + j)) := rfl
    rw [hrun]
    refine bwd_step G gv H _ F.qnd hmem j ?_ _ hI
    rw [hqlen]
    exact hj

theorem stepP_empty (G : FGraph) (gv : Expr → ℤ) (st : PState)
    (h : st.queue = []) : stepP G gv st = st := by
  obtain ⟨qu, vis, fw, mail, maxMail, ms⟩ := st
  have h2 : qu = [] := h
  subst h2
  rfl

theorem runP_fix (G : FGraph) (gv : Expr → ℤ) (k : ℕ)
    (h : (runP G gv k).queue = []) : ∀ m, runP G gv (k + m) = runP G gv k := by
  intro m
  induction m with
  | zero => rfl
  | succ m ih =>
    show stepP G gv (runP G gv (k + m)) = runP G gv k
    rw [ih, stepP_empty G gv _ h]

/-- C9 (corrected, amended part): on every graph satisfying the structural
hypotheses `GraphH` (finite, connected, duplicate-free, bipartite-closed,
with a nonempty initial leaf queue), the two-phase loop (1) runs the collect
phase for exactly `|nodes|` iterations, each with `forward = True` and a
nonempty queue, so each iteration dequeues exactly one node; (2) at the
phase flip the processing order contains every node exactly once; (3) the
distribute phase then processes exactly the reverse of that order, ending
with an empty queue, so each node is dequeued exactly once per phase; and
(4) the empty-queue state is a fixed point of the loop body — the loop
terminates after `2 * |nodes|` productive iterations. -/
theorem claim_C9 (G : FGraph) (gv : Expr → ℤ) (H : GraphH G) :
    (∀ k, k < G.nodes.length →
        (runP G gv k).forward = true ∧ (runP G gv k).queue ≠ [])
    ∧ ((runP G gv G.nodes.length).queue.Nodup
        ∧ (∀ n, n ∈ (runP G gv G.nodes.length).queue ↔ n ∈ G.nodes))
    ∧ ((runP G gv (2 * G.nodes.length)).visited
        = ((runP G gv G.nodes.length).queue).reverse
        ∧ (runP G gv (2 * G.nodes.length)).queue = [])
    ∧ (∀ m, runP G gv (2 * G.nodes.length + m) = runP G gv (2 * G.nodes.length)) := by
  rcases fwd_phase G gv H G.nodes.length (le_refl _) with
    ⟨_, _, _, hlt⟩ | ⟨F, hqlen, hmem, _⟩
  · omega
  have hB := bwd_phase G gv H G.nodes.length (le_refl _)
  have h2 : 2 * G.nodes.length = G.nodes.length + G.nodes.length := by omega
  have hvis2 : (runP G gv (2 * G.nodes.length)).visited
      = ((runP G gv G.nodes.length).queue).reverse := by
    rw [h2]
    have hv := hB.veq
    rw [hqlen, Nat.sub_self, List.drop_zero] at hv
    exact hv
  have hq2 : (runP G gv (2 * G.nodes.length)).queue = [] := by
    rw [h2]
    have hqe := hB.qeq
    rw [hqlen, Nat.sub_self, List.take_zero] at hqe
    exact hqe
  refine ⟨?_, ⟨F.qnd, hmem⟩, ⟨hvis2, hq2⟩, runP_fix G gv (2 * G.nodes.length) hq2⟩
  intro k hk
  rcases fwd_phase G gv H k (le_of_lt hk) with ⟨I, hne, _, _⟩ | ⟨_, _, _, hkeq⟩
  · exact ⟨I.fq, hne⟩
  · omega

/-- Witness for C9 at the path graph E3 (5 nodes, so the flip happens at
iteration 5 and the loop is finished and stationary from iteration 10). -/
theorem claim_C9_witness :
    (∀ k, k < G3.nodes.length →
        (runP G3 gv3 k).forward = true ∧ (runP G3 gv3 k).queue ≠ [])
    ∧ ((runP G3 gv3 G3.nodes.length).queue.Nodup
        ∧ (∀ n, n ∈ (runP G3 gv3 G3.nodes.length).queue ↔ n ∈ G3.nodes))
    ∧ ((runP G3 gv3 (2 * G3.nodes.length)).visited
        = ((runP G3 gv3 G3.nodes.length).queue).reverse
        ∧ (runP G3 gv3 (2 * G3.nodes.length)).queue = [])
    ∧ (∀ m, runP G3 gv3 (2 * G3.nodes.length + m)
        = runP G3 gv3 (2 * G3.nodes.length)) :=
  claim_C9 G3 gv3 ⟨by decide, by decide, by decide, by decide, by decide, by decide⟩

/-- C4 (corrected, amended part): at loop termination, for every node `a`
of the graph and every neighbor `b`, the mailbox of `b` holds exactly one
sum-product message from `a` (so every Variable holds exactly one from each
neighboring Factor), while it holds a max-sum message from `a` only when
`a` was processed strictly before `b` in the collect order (`b` is not in
the prefix of the collect order before `a`) — in particular none from the
neighbor through which the distribute phase reached it; non-neighbors
contribute no messages at all. -/
theorem claim_C4 (G : FGraph) (gv : Expr → ℤ) (H : GraphH G) :
    ∀ a ∈ G.nodes, ∀ b,
      (b ∈ G.nbrs a →
        countSrc a ((runP G gv (2 * G.nodes.length)).mail b) = 1
        ∧ countSrc a ((runP G gv (2 * G.nodes.length)).maxMail b)
            = (if b ∉ ((runP G gv G.nodes.length).queue).take
                (((runP G gv G.nodes.length).queue).indexOf a) then 1 else 0))
      ∧ (b ∉ G.nbrs a →
        countSrc a ((runP G gv (2 * G.nodes.length)).mail b) = 0
        ∧ countSrc a ((runP G gv (2 * G.nodes.length)).maxMail b) = 0) := by
  rcases fwd_phase G gv H G.nodes.length (le_refl _) with
    ⟨_, _, _, hlt⟩ | ⟨F, hqlen, hmem, _⟩
  · omega
  have hB := bwd_phase G gv H G.nodes.length (le_refl _)
  have h2 : 2 * G.nodes.length = G.nodes.length + G.nodes.length := by omega
  intro a haG b
  have haV : a ∈ (runP G gv G.nodes.length).queue := (hmem a).mpr haG
  refine ⟨?_, ?_⟩
  · intro hab
    constructor
    · rw [h2]
      have hc := hB.mailcnt a b hab
      rw [hqlen, Nat.sub_self, List.drop_zero] at hc
      rw [hc]
      by_cases hbt : b ∈ ((runP G gv G.nodes.length).queue).take
          (((runP G gv G.nodes.length).queue).indexOf a)
      · have e1 : (if a ∈ (runP G gv G.nodes.length).queue
            ∧ b ∉ ((runP G gv G.nodes.length).queue).take
              (((runP G gv G.nodes.length).queue).indexOf a) then 1 else 0) = 0 :=
          if_neg (fun hcc => hcc.2 hbt)
        have e2 : (if a ∈ (runP G gv G.nodes.length).queue
            ∧ b ∈ ((runP G gv G.nodes.length).queue).take
              (((runP G gv G.nodes.length).queue).indexOf a) then 1 else 0) = 1 :=
          if_pos ⟨haV, hbt⟩
        rw [e1, e2]
      · have e1 : (if a ∈ (runP G gv G.nodes.length).queue
            ∧ b ∉ ((runP G gv G.nodes.length).queue).take
              (((runP G gv G.nodes.length).queue).indexOf a) then 1 else 0) = 1 :=
          if_pos ⟨haV, hbt⟩
        have e2 : (if a ∈ (runP G gv G.nodes.length).queue
            ∧ b ∈ ((runP G gv G.nodes.length).queue).take
              (((runP G gv G.nodes.length).queue).indexOf a) then 1 else 0) = 0 :=
          if_neg (fun hcc => hbt hcc.2)
        rw [e1, e2]
    · rw [h2]
      have hc := hB.maxcnt a b hab
      rw [hc]
      by_cases hbt : b ∈ ((runP G gv G.nodes.length).queue).take
          (((runP G gv G.nodes.length).queue).indexOf a)
      · rw [if_neg (fun hcc => hcc.2 hbt), if_neg (fun hcc => hcc hbt)]
      · rw [if_pos ⟨haV, hbt⟩, if_pos hbt]
  · intro hab
    rw [h2]
    exact ⟨hB.mailnon a b hab, hB.maxnon a b hab⟩

/-- Witness for C4 at the path graph E3: the leaf Variable `x1` ends the run
holding exactly one sum-product message but ZERO max-sum messages from its
single neighboring Factor `fa` (which the distribute phase reached it
through), while `x2` does hold the max-sum message of `fa`. -/
theorem claim_C4_witness :
    countSrc (.F 1) ((runP G3 gv3 (2 * G3.nodes.length)).mail (.V 1)) = 1
    ∧ countSrc (.F 1) ((runP G3 gv3 (2 * G3.nodes.length)).maxMail (.V 1)) = 0
    ∧ countSrc (.F 1) ((runP G3 gv3 (2 * G3.nodes.length)).maxMail (.V 2)) = 1 := by
  have hH : GraphH G3 :=
    ⟨by decide, by decide, by decide, by decide, by decide, by decide⟩
  have h1 := (claim_C4 G3 gv3 hH (.F 1) (by decide) (.V 1)).1 (by decide)
  have h2 := (claim_C4 G3 gv3 hH (.F 1) (by decide) (.V 2)).1 (by decide)
  exact ⟨h1.1, h1.2.trans (by decide), h2.2.trans (by decide)⟩
